/-
Verification of the OpenShrimp-CORA RAG engine core
(src/backend/core/rag: engine.py, vector_stores.py, processors.py, cache.py).

Modelling conventions (kept uniform through the file):
* Python floats are modelled as real numbers (ℝ); `x ** 0.5` applied to a
  non-negative float is modelled as `Real.sqrt`.
* Python lists are Lean lists.  Python dicts are association lists kept in
  insertion order (Python 3.7+ dicts preserve insertion order, and writing
  to an existing key keeps its position).
* `list.sort(key=..., reverse=True)` is a stable descending sort; it is
  modelled with `List.insertionSort` over "second score ≤ first score"
  (Mathlib's insertionSort is stable, like CPython's sort).
* `async`/`await` is sequential control flow here (every awaited call is a
  plain call); exceptions are modelled with `Except`/`Bool` results where a
  claim depends on them.
* Fields of the Python dataclasses that no claim mentions (timestamps,
  `overlap_with_prev`/`overlap_with_next`, the free-form `metadata` dict of
  `RetrievalResult`) are omitted from the structures.
-/
import Mathlib

/-! ## Data model (base.py) -/

/-- `DocumentChunk` of base.py: the retrievable unit.  `metadata` is the
open key-value map restricted to string values (the only values the
claims' code paths compare). -/
structure DocumentChunk where
  content : String
  chunk_id : String
  doc_id : String
  chunk_index : ℕ
  start_char : ℕ
  end_char : ℕ
  metadata : List (String × String)
  embedding : Option (List ℝ)

/-- `RetrievalResult` of base.py (without its free-form metadata dict). -/
structure RetrievalResult where
  chunk : DocumentChunk
  score : ℝ
  rank : ℕ
  retrieval_method : String

/-- `RetrievalStrategy` of base.py. -/
inductive RetrievalStrategy
  | similarity
  | mmr
  | hybrid
  | keyword
  | semantic_hybrid
deriving DecidableEq

/-- `RetrievalQuery` of base.py.  `top_k` is an int that the data model
constrains to be positive, so it is modelled as ℕ. -/
structure RetrievalQuery where
  query : String
  top_k : ℕ
  strategy : RetrievalStrategy
  filters : List (String × String)
  threshold : ℝ
  rerank : Bool
  expand_query : Bool
  query_embedding : Option (List ℝ)

/-! ## Cosine similarity

`_cosine_similarity` appears textually identically in
`StandardRetriever` (engine.py lines 342-354), `FAISSVectorStore`
(vector_stores.py 299-311), `ChromaVectorStore` (561-573) and
`InMemoryVectorStore` (693-705); one definition embeds all four copies. -/

/-- `sum(a * b for a, b in zip(vec1, vec2))` (zip truncates to the shorter
list; the caller checks the lengths first). -/
def dotProduct (vec1 vec2 : List ℝ) : ℝ :=
  (List.zipWith (· * ·) vec1 vec2).sum

/-- `sum(a * a for a in vec) ** 0.5`. -/
noncomputable def l2norm (vec : List ℝ) : ℝ :=
  Real.sqrt (vec.map (fun a => a * a)).sum

/-- `_cosine_similarity(vec1, vec2)`: 0 on length mismatch, 0 when either
norm is 0, otherwise dot / (norm1 * norm2). -/
noncomputable def cosine_similarity (vec1 vec2 : List ℝ) : ℝ :=
  if vec1.length ≠ vec2.length then 0
  else
    let norm1 := l2norm vec1
    let norm2 := l2norm vec2
    if norm1 = 0 ∨ norm2 = 0 then 0
    else dotProduct vec1 vec2 / (norm1 * norm2)

theorem zipWith_mul_self (v : List ℝ) :
    List.zipWith (· * ·) v v = v.map (fun a => a * a) := by
  induction v with
  | nil => rfl
  | cons x xs ih => simp [List.zipWith, ih]

theorem dotProduct_comm (a b : List ℝ) : dotProduct a b = dotProduct b a := by
  unfold dotProduct
  congr 1
  induction a generalizing b with
  | nil => cases b <;> rfl
  | cons x xs ih =>
    cases b with
    | nil => rfl
    | cons y ys => simp [List.zipWith, mul_comm, ih]

theorem sum_sq_pos_of_mem {v : List ℝ} {x : ℝ} (hx : x ∈ v) (hx0 : x ≠ 0) :
    0 < (v.map (fun a => a * a)).sum := by
  have hle : x * x ≤ (v.map (fun a => a * a)).sum := by
    apply List.single_le_sum
    · intro y hy
      obtain ⟨z, _, rfl⟩ := List.mem_map.mp hy
      exact mul_self_nonneg z
    · exact List.mem_map.mpr ⟨x, hx, rfl⟩
  exact lt_of_lt_of_le (mul_self_pos.mpr hx0) hle

/-- C9: `_cosine_similarity` computes dot(a,b)/(‖a‖·‖b‖) and returns 0
whenever either norm is 0; consequently sim(v,v) = 1 for every vector with
a non-zero entry, sim(v, 0ⁿ) = 0 against any all-zero vector, and
sim(a,b) = sim(b,a) for all vectors. -/
theorem cosine_similarity_eq (a b : List ℝ) :
    cosine_similarity a b =
      if a.length ≠ b.length then 0
      else if l2norm a = 0 ∨ l2norm b = 0 then 0
      else dotProduct a b / (l2norm a * l2norm b) := rfl

theorem C9_cosine_similarity_properties :
    (∀ a b : List ℝ, a.length = b.length → l2norm a ≠ 0 → l2norm b ≠ 0 →
        cosine_similarity a b = dotProduct a b / (l2norm a * l2norm b)) ∧
    (∀ a b : List ℝ, l2norm a = 0 ∨ l2norm b = 0 → cosine_similarity a b = 0) ∧
    (∀ v : List ℝ, (∃ x ∈ v, x ≠ 0) → cosine_similarity v v = 1) ∧
    (∀ (v : List ℝ) (n : ℕ), cosine_similarity v (List.replicate n 0) = 0) ∧
    (∀ a b : List ℝ, cosine_similarity a b = cosine_similarity b a) := by
  refine ⟨?_, ?_, ?_, ?_, ?_⟩
  · intro a b hlen h1 h2
    rw [cosine_similarity_eq, if_neg (by simp [hlen]), if_neg (by simp [h1, h2])]
  · intro a b h
    rw [cosine_similarity_eq]
    by_cases hlen : a.length ≠ b.length
    · rw [if_pos hlen]
    · rw [if_neg hlen, if_pos h]
  · intro v ⟨x, hx, hx0⟩
    have hpos : 0 < (v.map (fun a => a * a)).sum := sum_sq_pos_of_mem hx hx0
    have hnorm : l2norm v * l2norm v = (v.map (fun a => a * a)).sum := by
      simpa [l2norm] using Real.mul_self_sqrt (le_of_lt hpos)
    have hnz : l2norm v ≠ 0 := by
      simp only [l2norm]
      exact ne_of_gt (Real.sqrt_pos.mpr hpos)
    have hdot : dotProduct v v = (v.map (fun a => a * a)).sum := by
      simp [dotProduct, zipWith_mul_self]
    rw [cosine_similarity_eq, if_neg (by simp), if_neg (by simp [hnz]), hdot,
      hnorm]
    exact div_self (ne_of_gt hpos)
  · intro v n
    rw [cosine_similarity_eq]
    by_cases hlen : v.length ≠ (List.replicate n (0 : ℝ)).length
    · rw [if_pos hlen]
    · have hz : l2norm (List.replicate n (0 : ℝ)) = 0 := by
        simp [l2norm]
      rw [if_neg hlen, if_pos (Or.inr hz)]
  · intro a b
    by_cases hlen : a.length = b.length
    · have e1 : cosine_similarity a b =
          if l2norm a = 0 ∨ l2norm b = 0 then 0
          else dotProduct a b / (l2norm a * l2norm b) := by
        rw [cosine_similarity_eq, if_neg (by simp [hlen])]
      have e2 : cosine_similarity b a =
          if l2norm b = 0 ∨ l2norm a = 0 then 0
          else dotProduct b a / (l2norm b * l2norm a) := by
        rw [cosine_similarity_eq, if_neg (by simp [hlen])]
      rw [e1, e2]
      by_cases hz : l2norm a = 0 ∨ l2norm b = 0
      · rw [if_pos hz, if_pos (Or.comm.mp hz)]
      · rw [if_neg hz, if_neg (fun h => hz (Or.comm.mp h)), dotProduct_comm,
          mul_comm]
    · have hlen' : ¬b.length = a.length := fun h => hlen h.symm
      rw [cosine_similarity_eq, cosine_similarity_eq, if_pos hlen, if_pos hlen']

/-! ## Chunker (processors.py, `TextDocumentProcessor`)

Only the fixed-size strategy is embedded: it is the only strategy any
claim exercises (`dynamic_chunking` defaults to False and is modelled
off).  Python text is a `List Char`; `str.strip()` trims whitespace on
both ends, `str.rfind(' ', start, end)` is the rightmost space in
`[start, min end len)`. -/

/-- `DocumentType` of base.py (the members the embedded paths inspect). -/
inductive DocumentType
  | text
  | markdown
  | pdf
  | json
  | csv
deriving DecidableEq

/-- `Document` of base.py, restricted to the fields `process_document`
reads. -/
structure Document where
  content : String
  doc_id : String
  doc_type : DocumentType
  metadata : List (String × String)

/-- `text.strip()`: drop whitespace from both ends. -/
def stripChars (l : List Char) : List Char :=
  ((l.dropWhile Char.isWhitespace).reverse.dropWhile Char.isWhitespace).reverse

/-- `re.sub(r'\s+', ' ', text)`: collapse every maximal whitespace run to a
single space. -/
def collapseWs : List Char → List Char
  | [] => []
  | c :: rest =>
    let tail := collapseWs rest
    if c.isWhitespace then
      match rest with
      | [] => [' ']
      | d :: _ => if d.isWhitespace then tail else ' ' :: tail
    else c :: tail

/-- `_preprocess_text` with `remove_special_chars` at its default False:
collapse whitespace, then strip. -/
def preprocess_text (s : String) : String :=
  String.mk (stripChars (collapseWs s.data))

/-- `text.rfind(' ', start, stop)`: the rightmost index `p` with
`start ≤ p < min stop len` holding a space, if any. -/
def rfindSpace (text : List Char) (start stop : ℕ) : Option ℕ :=
  (List.range (min stop text.length)).foldl
    (fun acc p => if start ≤ p ∧ text.getD p 'x' = ' ' then some p else acc) none

/-- The window end of one iteration of `_chunk_by_fixed_size`:
`end = start + chunk_size`, backed off to the rightmost space strictly
after `start` when the window is not the last one. -/
def windowEnd (text : List Char) (s start : ℕ) : ℕ :=
  if start + s < text.length then
    match rfindSpace text start (start + s) with
    | some p => if start < p then p else start + s
    | none => start + s
  else start + s

/-- The chunk one iteration of `_chunk_by_fixed_size` appends:
`text[start:e].strip()` with span `[start, e)`.  The numeric provenance
metadata entries (original/chunk length) are omitted; the strategy tag is
kept. -/
def fixedChunk (text : List Char) (did : String) (meta : List (String × String))
    (start e idx : ℕ) : DocumentChunk :=
  { content := String.mk (stripChars ((text.drop start).take (e - start)))
    chunk_id := did ++ "_chunk_" ++ toString idx
    doc_id := did
    chunk_index := idx
    start_char := start
    end_char := e
    metadata := ("strategy", "fixed_size") :: meta
    embedding := none }

/-- The `while start < len(text)` loop of `_chunk_by_fixed_size`.  `start`
advances by `max(start + 1, end - overlap) ≥ start + 1` per iteration, so
`text.length` iterations always suffice; the explicit fuel only makes the
recursion structural.  (`end - overlap` can be negative in Python; it then
loses the `max` to `start + 1` exactly as truncated subtraction does.) -/
def chunkLoop (text : List Char) (s o m : ℕ) (did : String)
    (meta : List (String × String)) : ℕ → ℕ → ℕ → List DocumentChunk
  | 0, _, _ => []
  | fuel + 1, start, idx =>
    if start < text.length then
      let e := windowEnd text s start
      let content := stripChars ((text.drop start).take (e - start))
      let start' := max (start + 1) (e - o)
      if m ≤ content.length then
        fixedChunk text did meta start e idx ::
          chunkLoop text s o m did meta fuel start' (idx + 1)
      else chunkLoop text s o m did meta fuel start' idx
    else []

/-- `_chunk_by_fixed_size(text)` with chunk size `s`, overlap `o` and
`min_chunk_size` `m`. -/
def chunkByFixedSize (text : List Char) (s o m : ℕ) (did : String)
    (meta : List (String × String)) : List DocumentChunk :=
  chunkLoop text s o m did meta text.length 0 0

/-- `TextDocumentProcessor.validate_config`: false when
`chunk_size ≤ 0` or `chunk_overlap ≥ chunk_size` (a ℕ overlap is never
negative). -/
def validate_chunk_config (chunk_size chunk_overlap : ℕ) : Bool :=
  if chunk_size ≤ 0 then false
  else if chunk_size ≤ chunk_overlap then false
  else true

/-- The chunking configuration of `TextDocumentProcessor` (fixed-size
strategy). -/
structure ChunkConfig where
  chunk_size : ℕ
  chunk_overlap : ℕ
  min_chunk_size : ℕ

/-- `process_document` for the fixed-size strategy: rejects unsupported
document types with a `DocumentProcessingError`, otherwise preprocesses
and chunks.  Note that it never consults `validate_config`. -/
def process_document (cfg : ChunkConfig) (doc : Document) :
    Except String (List DocumentChunk) :=
  if doc.doc_type = DocumentType.text ∨ doc.doc_type = DocumentType.markdown then
    Except.ok (chunkByFixedSize (preprocess_text doc.content).data
      cfg.chunk_size cfg.chunk_overlap cfg.min_chunk_size doc.doc_id doc.metadata)
  else Except.error "unsupported document type"

theorem windowEnd_gt {text : List Char} {s start : ℕ} (hs : 1 ≤ s) :
    start < windowEnd text s start := by
  unfold windowEnd
  split
  · split
    · split <;> omega
    · omega
  · omega

theorem chunkLoop_zero_cons {text : List Char} {s o : ℕ} {did : String}
    {meta : List (String × String)} {fuel start idx : ℕ} {c : DocumentChunk}
    {rest : List DocumentChunk}
    (h : chunkLoop text s o 0 did meta fuel start idx = c :: rest) :
    c.start_char = start ∧ c.end_char = windowEnd text s start := by
  cases fuel with
  | zero => simp [chunkLoop] at h
  | succ fuel =>
    rw [chunkLoop] at h
    by_cases hlt : start < text.length
    · rw [if_pos hlt] at h
      simp only [Nat.zero_le, if_pos] at h
      cases h
      constructor <;> rfl
    · rw [if_neg hlt] at h
      cases h

theorem chunkLoop_coverage {text : List Char} {s o : ℕ} (hs : 1 ≤ s)
    (did : String) (meta : List (String × String)) :
    ∀ (fuel start idx p : ℕ), text.length - start ≤ fuel → start ≤ p →
      p < text.length →
      ∃ c ∈ chunkLoop text s o 0 did meta fuel start idx,
        c.start_char ≤ p ∧ p < c.end_char := by
  intro fuel
  induction fuel with
  | zero => intro start idx p hf hsp hp; omega
  | succ fuel ih =>
    intro start idx p hf hsp hp
    have hlt : start < text.length := lt_of_le_of_lt hsp hp
    rw [chunkLoop, if_pos hlt]
    simp only [Nat.zero_le, if_pos]
    set e := windowEnd text s start with he
    by_cases hpe : p < e
    · exact ⟨fixedChunk text did meta start e idx, List.mem_cons_self _ _,
        hsp, hpe⟩
    · have hse : start < e := windowEnd_gt hs
      have h1 : max (start + 1) (e - o) ≤ p := by omega
      have h2 : text.length - max (start + 1) (e - o) ≤ fuel := by omega
      obtain ⟨c, hc, hc1, hc2⟩ := ih (max (start + 1) (e - o)) (idx + 1) p h2 h1 hp
      exact ⟨c, List.mem_cons_of_mem _ hc, hc1, hc2⟩

theorem chunkLoop_chain {text : List Char} {s o : ℕ}
    (did : String) (meta : List (String × String)) :
    ∀ (fuel start idx : ℕ),
      List.Chain' (fun a b => min a.end_char b.end_char - b.start_char ≤ o)
        (chunkLoop text s o 0 did meta fuel start idx) := by
  intro fuel
  induction fuel with
  | zero => intro start idx; simp [chunkLoop]
  | succ fuel ih =>
    intro start idx
    rw [chunkLoop]
    by_cases hlt : start < text.length
    · rw [if_pos hlt]
      simp only [Nat.zero_le, if_pos]
      apply List.Chain'.cons'
      · exact ih _ _
      · intro b hb
        obtain ⟨l, hl⟩ : ∃ l, chunkLoop text s o 0 did meta fuel
            (max (start + 1) (windowEnd text s start - o)) (idx + 1) = b :: l := by
          cases hcl : chunkLoop text s o 0 did meta fuel
              (max (start + 1) (windowEnd text s start - o)) (idx + 1) with
          | nil => rw [hcl] at hb; cases hb
          | cons x xs =>
            rw [hcl] at hb
            cases hb
            exact ⟨xs, rfl⟩
        obtain ⟨hb1, _⟩ := chunkLoop_zero_cons hl
        simp only [fixedChunk, hb1]
        omega
    · rw [if_neg hlt]
      exact List.chain'_nil

/-- C3 (amended): for fixed-size chunking with `min_chunk_size = 0` (no
window is dropped) and overlap `o < s`, the chunk spans cover `[0, L)` and
each adjacent pair of spans overlaps by at most `o` characters.  (With a
positive `min_chunk_size`, windows whose stripped content is shorter are
dropped and coverage can fail — see the counterexample.) -/
theorem C3_fixed_size_coverage (text : List Char) (s o : ℕ) (did : String)
    (meta : List (String × String)) (ho : o < s) :
    (∀ p, p < text.length →
      ∃ c ∈ chunkByFixedSize text s o 0 did meta,
        c.start_char ≤ p ∧ p < c.end_char) ∧
    List.Chain' (fun a b => min a.end_char b.end_char - b.start_char ≤ o)
      (chunkByFixedSize text s o 0 did meta) := by
  constructor
  · intro p hp
    exact chunkLoop_coverage (by omega) did meta text.length 0 0 p (by omega)
      (Nat.zero_le p) hp
  · exact chunkLoop_chain did meta text.length 0 0

/-- C3 witness: the amended statement at text "ab cd", s = 3, o = 1. -/
theorem C3_fixed_size_coverage_witness :
    (∀ p, p < ("ab cd".data).length →
      ∃ c ∈ chunkByFixedSize "ab cd".data 3 1 0 "d" [],
        c.start_char ≤ p ∧ p < c.end_char) ∧
    List.Chain' (fun a b => min a.end_char b.end_char - b.start_char ≤ 1)
      (chunkByFixedSize "ab cd".data 3 1 0 "d" []) :=
  C3_fixed_size_coverage "ab cd".data 3 1 "d" [] (by decide)

/-- C3 counterexample: with the processor's default `min_chunk_size = 100`,
the five-character text "abcde" (s = 10, o = 2, so o < s) produces no
chunks at all, so the spans do not cover `[0, 5)`. -/
theorem C3_counterexample :
    chunkByFixedSize "abcde".data 10 2 100 "d" [] = [] ∧
    ("abcde".data).length = 5 ∧
    ¬∃ c ∈ chunkByFixedSize "abcde".data 10 2 100 "d" [],
        c.start_char ≤ 0 ∧ 0 < c.end_char := by
  refine ⟨rfl, by decide, ?_⟩
  intro ⟨c, hc, _⟩
  rw [show chunkByFixedSize "abcde".data 10 2 100 "d" [] = [] from rfl] at hc
  cases hc

/-- C4: `validate_config` rejects `chunk_size = 2 ≤ 5 = chunk_overlap`, yet
`process_document` never calls it: at that configuration it happily
returns a chunk list (three chunks for "abc") instead of failing with a
`ChunkingError`. -/
theorem C4_chunk_size_le_overlap_not_rejected :
    validate_chunk_config 2 5 = false ∧
    process_document { chunk_size := 2, chunk_overlap := 5, min_chunk_size := 0 }
        { content := "abc", doc_id := "doc1", doc_type := DocumentType.text,
          metadata := [] } =
      Except.ok (chunkByFixedSize "abc".data 2 5 0 "doc1" []) ∧
    (chunkByFixedSize "abc".data 2 5 0 "doc1" []).length = 3 := by
  refine ⟨by decide, ?_, by decide⟩
  rfl

/-! ## Embedding cache (cache.py)

`CachingEmbeddingProvider` over `MemoryCacheBackend`.  The cache key
`"emb:{model_id}:{sha256(text[:10000] + model_id)}"` is modelled by the
pair `(model_id, text[:10000])` it is computed from (SHA-256 is assumed
collision-free).  Cached vectors are opaque values here; `List ℚ` stands
for `List[float]` (no arithmetic is ever performed on them).  The inner
provider is a function `String → List ℚ` and its `embed_batch` is its
order-preserving map, per the provider contract.  Wall-clock latency
bookkeeping (`total_latency_saved_ms`, entry timestamps) is omitted. -/

/-- `text[:10000]`.  The length guard only short-circuits the evaluation
for texts that are not truncated; it does not change the value
(`s.take n = s` whenever `n ≥ s.length`). -/
def pytruncate (text : String) : String :=
  if text.length ≤ 10000 then text else text.take 10000

/-- The cache key `_hash_text(text, model_id)` builds. -/
def cacheKey (model_id text : String) : String × String :=
  (model_id, pytruncate text)

/-- Association-list lookup on the `_store` dict. -/
def alookup (k : String × String) : List ((String × String) × List ℚ) → Option (List ℚ)
  | [] => none
  | e :: rest => if e.1 = k then some e.2 else alookup k rest

/-- `self._order.remove(key)` (removing the first occurrence; a no-op when
absent, matching the `except ValueError: pass`). -/
def lremove (k : String × String) : List (String × String) → List (String × String)
  | [] => []
  | x :: rest => if x = k then rest else x :: lremove k rest

/-- `CacheStats` of the backend (hit/miss/set/eviction counting;
latency-saved is time-based and omitted). -/
structure BackendStats where
  hits : ℕ
  misses : ℕ
  sets : ℕ
  evictions : ℕ
  total_requests : ℕ

/-- `MemoryCacheBackend`: `_store` (dict key → vector), `_order` (approx
LRU list), `_stats`. -/
structure CacheBackendState where
  store : List ((String × String) × List ℚ)
  order : List (String × String)
  stats : BackendStats

/-- `MemoryCacheBackend.get`. -/
def backendGet (k : String × String) (st : CacheBackendState) :
    Option (List ℚ) × CacheBackendState :=
  let stats := { st.stats with total_requests := st.stats.total_requests + 1 }
  match alookup k st.store with
  | none => (none, { st with stats := { stats with misses := stats.misses + 1 } })
  | some v =>
      (some v, { st with
                 order := lremove k st.order ++ [k]
                 stats := { stats with hits := stats.hits + 1 } })

/-- Writing `key → value` into the `_store` dict: replace in place when the
key is present, append otherwise. -/
def dictSet (k : String × String) (v : List ℚ)
    (store : List ((String × String) × List ℚ)) :
    List ((String × String) × List ℚ) :=
  match alookup k store with
  | some _ => store.map (fun e => if e.1 = k then (k, v) else e)
  | none => store ++ [(k, v)]

/-- Deleting a key from the `_store` dict. -/
def dictDel (k : String × String) (store : List ((String × String) × List ℚ)) :
    List ((String × String) × List ℚ) :=
  store.filter (fun e => !(e.1 == k))

/-- `MemoryCacheBackend.set` with capacity `maxE` (`max_entries`): evict
the head of `_order` when inserting a new key at capacity, then write and
refresh the order.  (`pop(0)` on an empty order — reachable only with
`max_entries = 0` — is modelled as a no-op; Python would raise there.) -/
def backendSet (maxE : ℕ) (k : String × String) (v : List ℚ)
    (st : CacheBackendState) : CacheBackendState :=
  let st1 :=
    if alookup k st.store = none ∧ maxE ≤ st.order.length then
      match st.order with
      | [] => st
      | ek :: rest =>
          if (alookup ek st.store).isSome then
            { st with
              store := dictDel ek st.store
              order := rest
              stats := { st.stats with evictions := st.stats.evictions + 1 } }
          else { st with order := rest }
    else st
  { st1 with
    store := dictSet k v st1.store
    order := lremove k st1.order ++ [k]
    stats := { st1.stats with sets := st1.stats.sets + 1 } }

/-- The wrapper's own `CacheStats` (`CachingEmbeddingProvider._stats`). -/
structure WrapperStats where
  hits : ℕ
  misses : ℕ
  total_requests : ℕ

/-- The state of one `CachingEmbeddingProvider`. -/
structure CacheProviderState where
  backend : CacheBackendState
  wstats : WrapperStats

/-- The provider's initial state (fresh backend, zero stats). -/
def initCacheState : CacheProviderState :=
  { backend := { store := [], order := [], stats := ⟨0, 0, 0, 0, 0⟩ },
    wstats := ⟨0, 0, 0⟩ }

/-- `CachingEmbeddingProvider.embed_text`: check the cache, call the inner
provider on a miss and store the result.  The third component lists the
texts passed to the inner provider (empty on a hit). -/
def embed_text (provider : String → List ℚ) (model_id : String) (maxE : ℕ)
    (st : CacheProviderState) (text : String) :
    List ℚ × CacheProviderState × List String :=
  let k := cacheKey model_id text
  let r := backendGet k st.backend
  match r.1 with
  | some v => (v, { st with backend := r.2 }, [])
  | none =>
      let v := provider text
      (v, { backend := backendSet maxE k v r.2
            wstats := { st.wstats with
                        misses := st.wstats.misses + 1
                        total_requests := st.wstats.total_requests + 1 } },
        [text])

/-- One iteration of `embed_batch`'s cache-probing loop: probe the next
text's key, record hit value or `none`, thread the backend state. -/
def probeStep (model_id : String)
    (acc : List (Option (List ℚ)) × CacheBackendState) (t : String) :
    List (Option (List ℚ)) × CacheBackendState :=
  let r := backendGet (cacheKey model_id t) acc.2
  (acc.1 ++ [r.1], r.2)

/-- `CachingEmbeddingProvider.embed_batch`: probe the cache for every text
in order, call the inner provider once for the missing ones, merge back
in original order (a missing position receives the vector the inner
provider computed for its text), and update hit/miss counts.  The third
component lists the texts passed to the inner provider. -/
def embed_batch (provider : String → List ℚ) (model_id : String) (maxE : ℕ)
    (st : CacheProviderState) (texts : List String) :
    List (List ℚ) × CacheProviderState × List String :=
  let probe := texts.foldl (probeStep model_id) ([], st.backend)
  let results := probe.1
  let b1 := probe.2
  let missingTexts := (texts.zip results).filterMap
    (fun p => if p.2 = none then some p.1 else none)
  if missingTexts = [] then
    (results.map (fun r => r.getD []),
      { st with
        backend := b1
        wstats := { st.wstats with
                    hits := st.wstats.hits + texts.length
                    total_requests := st.wstats.total_requests + texts.length } },
      [])
  else
    let b2 := missingTexts.foldl
      (fun b t => backendSet maxE (cacheKey model_id t) (provider t) b) b1
    ((texts.zip results).map (fun p => match p.2 with
        | some v => v
        | none => provider p.1),
      { backend := b2
        wstats := { st.wstats with
                    misses := st.wstats.misses + missingTexts.length
                    hits := st.wstats.hits + (texts.length - missingTexts.length)
                    total_requests := st.wstats.total_requests + texts.length } },
      missingTexts)

/-- A sequence of individual `embed_text` calls; the second component logs
each call's text and returned vector. -/
def runEmbedTexts (provider : String → List ℚ) (model_id : String) (maxE : ℕ) :
    List String → CacheProviderState →
    CacheProviderState × List (String × List ℚ)
  | [], st => (st, [])
  | t :: rest, st =>
      let r := embed_text provider model_id maxE st t
      let rr := runEmbedTexts provider model_id maxE rest r.2.1
      (rr.1, (t, r.1) :: rr.2)

/-! ### Lemmas about the cache backend -/

theorem alookup_append_left {k : String × String} {v : List ℚ}
    {l1 l2 : List ((String × String) × List ℚ)} (h : alookup k l1 = some v) :
    alookup k (l1 ++ l2) = some v := by
  induction l1 with
  | nil => simp [alookup] at h
  | cons e rest ih =>
    rw [List.cons_append, alookup]
    rw [alookup] at h
    by_cases he : e.1 = k
    · rwa [if_pos he] at h ⊢
    · rw [if_neg he] at h ⊢
      exact ih h

theorem alookup_append_right {k : String × String}
    {l1 l2 : List ((String × String) × List ℚ)} (h : alookup k l1 = none) :
    alookup k (l1 ++ l2) = alookup k l2 := by
  induction l1 with
  | nil => simp
  | cons e rest ih =>
    rw [List.cons_append, alookup]
    rw [alookup] at h
    by_cases he : e.1 = k
    · rw [if_pos he] at h; cases h
    · rw [if_neg he] at h ⊢
      exact ih h

theorem alookup_isSome_iff {k : String × String}
    {l : List ((String × String) × List ℚ)} :
    (alookup k l).isSome ↔ k ∈ l.map Prod.fst := by
  induction l with
  | nil => simp [alookup]
  | cons e rest ih =>
    rw [alookup]
    by_cases he : e.1 = k
    · simp [he]
    · simp only [if_neg he, List.map_cons, List.mem_cons, ih]
      constructor
      · exact Or.inr
      · rintro (h | h)
        · exact absurd h.symm he
        · exact h

theorem alookup_none_iff {k : String × String}
    {l : List ((String × String) × List ℚ)} :
    alookup k l = none ↔ k ∉ l.map Prod.fst := by
  rw [← alookup_isSome_iff, Option.isSome_iff_exists]
  cases alookup k l <;> simp

theorem lremove_of_not_mem {k : String × String} {l : List (String × String)}
    (h : k ∉ l) : lremove k l = l := by
  induction l with
  | nil => rfl
  | cons x rest ih =>
    rw [lremove]
    rw [if_neg (by rintro rfl; exact h (List.mem_cons_self _ _)),
      ih (fun hm => h (List.mem_cons_of_mem _ hm))]

theorem lremove_append_perm {k : String × String} {l : List (String × String)}
    (h : k ∈ l) : (lremove k l ++ [k]).Perm l := by
  induction l with
  | nil => cases h
  | cons x rest ih =>
    rw [lremove]
    by_cases hx : x = k
    · rw [if_pos hx, hx]
      exact List.perm_append_singleton k rest
    · rw [if_neg hx, List.cons_append]
      have hk : k ∈ rest := by
        cases List.mem_cons.mp h with
        | inl h' => exact absurd h'.symm hx
        | inr h' => exact h'
      exact (ih hk).cons x

/-- Well-formedness of the backend: the stored keys are distinct (a dict)
and `_order` holds exactly the stored keys. -/
def BackendWF (st : CacheBackendState) : Prop :=
  (st.store.map Prod.fst).Nodup ∧ st.order.Perm (st.store.map Prod.fst)

theorem backendWF_init : BackendWF { store := [], order := [], stats := ⟨0, 0, 0, 0, 0⟩ } :=
  ⟨List.nodup_nil, List.Perm.refl _⟩

theorem backendGet_hit {k : String × String} {v : List ℚ}
    {st : CacheBackendState} (h : alookup k st.store = some v) :
    (backendGet k st).1 = some v ∧
    (backendGet k st).2.store = st.store ∧
    (backendGet k st).2.stats.misses = st.stats.misses ∧
    (BackendWF st → BackendWF (backendGet k st).2) := by
  unfold backendGet
  rw [h]
  refine ⟨rfl, rfl, rfl, fun hwf => ⟨hwf.1, ?_⟩⟩
  have hk : k ∈ st.order := hwf.2.mem_iff.mpr
    (alookup_isSome_iff.mp (by rw [h]; rfl))
  exact (lremove_append_perm hk).trans hwf.2

theorem backendSet_fresh {maxE : ℕ} {k : String × String} {v : List ℚ}
    {st : CacheBackendState} (hwf : BackendWF st)
    (hnew : alookup k st.store = none)
    (hroom : st.order.length < maxE) :
    (backendSet maxE k v st).store = st.store ++ [(k, v)] ∧
    BackendWF (backendSet maxE k v st) := by
  have hnotmem : k ∉ st.store.map Prod.fst := alookup_none_iff.mp hnew
  have hnotord : k ∉ st.order := fun h => hnotmem (hwf.2.mem_iff.mp h)
  unfold backendSet
  rw [if_neg (by omega)]
  refine ⟨?_, ?_, ?_⟩
  · simp only [dictSet, hnew]
  · simp only [dictSet, hnew, List.map_append, List.map_cons, List.map_nil]
    refine List.Nodup.append hwf.1 (List.nodup_singleton k) ?_
    intro a ha hb
    rw [List.mem_singleton] at hb
    exact hnotmem (hb ▸ ha)
  · simp only [dictSet, hnew, lremove_of_not_mem hnotord, List.map_append]
    exact hwf.2.append_right [k]

theorem embed_text_hit {provider : String → List ℚ} {model_id : String}
    {maxE : ℕ} {st : CacheProviderState} {text : String} {v : List ℚ}
    (h : alookup (cacheKey model_id text) st.backend.store = some v) :
    (embed_text provider model_id maxE st text).1 = v ∧
    (embed_text provider model_id maxE st text).2.1.backend.store =
      st.backend.store ∧
    (embed_text provider model_id maxE st text).2.1.wstats = st.wstats ∧
    (BackendWF st.backend →
      BackendWF (embed_text provider model_id maxE st text).2.1.backend) := by
  have hg := @backendGet_hit _ _ st.backend h
  simp only [embed_text]
  rw [hg.1]
  exact ⟨rfl, hg.2.1, rfl, hg.2.2.2⟩

theorem embed_text_miss {provider : String → List ℚ} {model_id : String}
    {maxE : ℕ} {st : CacheProviderState} {text : String}
    (h : alookup (cacheKey model_id text) st.backend.store = none)
    (hwf : BackendWF st.backend)
    (hroom : (st.backend.store.map Prod.fst).length < maxE) :
    (embed_text provider model_id maxE st text).1 = provider text ∧
    (embed_text provider model_id maxE st text).2.1.backend.store =
      st.backend.store ++ [(cacheKey model_id text, provider text)] ∧
    BackendWF (embed_text provider model_id maxE st text).2.1.backend := by
  have hget : (backendGet (cacheKey model_id text) st.backend).1 = none ∧
      (backendGet (cacheKey model_id text) st.backend).2.store = st.backend.store ∧
      (backendGet (cacheKey model_id text) st.backend).2.order = st.backend.order := by
    unfold backendGet
    rw [h]
    exact ⟨rfl, rfl, rfl⟩
  have hwf1 : BackendWF (backendGet (cacheKey model_id text) st.backend).2 := by
    rw [BackendWF, hget.2.1, hget.2.2]
    exact hwf
  have hroom1 : (backendGet (cacheKey model_id text) st.backend).2.order.length < maxE := by
    rw [hget.2.2, hwf.2.length_eq]
    exact hroom
  have hset := @backendSet_fresh maxE _ (provider text) _ hwf1
    (by rw [hget.2.1]; exact h) hroom1
  simp only [embed_text]
  rw [hget.1]
  exact ⟨rfl, by rw [hset.1, hget.2.1], hset.2⟩

theorem runPrior_spec (provider : String → List ℚ) (model_id : String)
    (maxE : ℕ) :
    ∀ (prior : List String) (st : CacheProviderState),
      BackendWF st.backend →
      ((st.backend.store.map Prod.fst) ++
        prior.map (cacheKey model_id)).toFinset.card ≤ maxE →
      BackendWF (runEmbedTexts provider model_id maxE prior st).1.backend ∧
      (∀ k w, alookup k st.backend.store = some w →
        alookup k (runEmbedTexts provider model_id maxE prior st).1.backend.store
          = some w) ∧
      (∀ t v, (t, v) ∈ (runEmbedTexts provider model_id maxE prior st).2 →
        alookup (cacheKey model_id t)
          (runEmbedTexts provider model_id maxE prior st).1.backend.store
          = some v) ∧
      (∀ t ∈ prior, (alookup (cacheKey model_id t)
          (runEmbedTexts provider model_id maxE prior st).1.backend.store).isSome) ∧
      (((runEmbedTexts provider model_id maxE prior st).1.backend.store.map
          Prod.fst).toFinset ⊆
        ((st.backend.store.map Prod.fst) ++
          prior.map (cacheKey model_id)).toFinset) := by
  intro prior
  induction prior with
  | nil =>
    intro st hwf _
    refine ⟨hwf, fun k w h => h, ?_, ?_, ?_⟩
    · intro t v h; cases h
    · intro t h; cases h
    · simp [runEmbedTexts]
  | cons t rest ih =>
    intro st hwf hcard
    simp only [runEmbedTexts]
    cases halk : alookup (cacheKey model_id t) st.backend.store with
    | some v =>
      have ht := @embed_text_hit provider _ maxE _ _ _ halk
      set st' := (embed_text provider model_id maxE st t).2.1 with hst'
      have hwf' : BackendWF st'.backend := ht.2.2.2 hwf
      have hcard' : ((st'.backend.store.map Prod.fst) ++
          rest.map (cacheKey model_id)).toFinset.card ≤ maxE := by
        refine le_trans (Finset.card_le_card ?_) hcard
        intro x hx
        rw [ht.2.1] at hx
        simp only [List.toFinset_append, Finset.mem_union, List.map_cons,
          List.toFinset_cons, Finset.mem_insert] at hx ⊢
        tauto
      obtain ⟨ihwf, ihpers, ihlog, ihmem, ihsub⟩ := ih st' hwf' hcard'
      refine ⟨ihwf, ?_, ?_, ?_, ?_⟩
      · intro k w h
        exact ihpers k w (by rw [ht.2.1]; exact h)
      · intro t0 v0 h0
        rcases List.mem_cons.mp h0 with h0 | h0
        · cases h0
          exact ihpers _ _ (by rw [ht.2.1, ht.1]; exact halk)
        · exact ihlog t0 v0 h0
      · intro t0 h0
        rcases List.mem_cons.mp h0 with h0 | h0
        · subst h0
          have := ihpers _ _ (by rw [ht.2.1]; exact halk)
          rw [this]; rfl
        · exact ihmem t0 h0
      · refine ihsub.trans ?_
        intro x hx
        rw [ht.2.1] at hx
        simp only [List.toFinset_append, Finset.mem_union, List.map_cons,
          List.toFinset_cons, Finset.mem_insert] at hx ⊢
        tauto
    | none =>
      have hknot : cacheKey model_id t ∉ (st.backend.store.map Prod.fst).toFinset := by
        simpa using alookup_none_iff.mp halk
      have hkeylen : (st.backend.store.map Prod.fst).toFinset.card =
          (st.backend.store.map Prod.fst).length :=
        List.toFinset_card_of_nodup hwf.1
      have hins : insert (cacheKey model_id t)
          (st.backend.store.map Prod.fst).toFinset ⊆
          ((st.backend.store.map Prod.fst) ++
            (t :: rest).map (cacheKey model_id)).toFinset := by
        intro x hx
        simp only [Finset.mem_insert] at hx
        simp only [List.toFinset_append, Finset.mem_union, List.map_cons,
          List.toFinset_cons, Finset.mem_insert]
        rcases hx with rfl | hx
        · exact Or.inr (Or.inl rfl)
        · exact Or.inl hx
      have hroom : (st.backend.store.map Prod.fst).length < maxE := by
        have h1 : (st.backend.store.map Prod.fst).toFinset.card + 1 ≤ maxE := by
          calc (st.backend.store.map Prod.fst).toFinset.card + 1
              = (insert (cacheKey model_id t)
                  (st.backend.store.map Prod.fst).toFinset).card :=
                (Finset.card_insert_of_not_mem hknot).symm
            _ ≤ _ := Finset.card_le_card hins
            _ ≤ maxE := hcard
        omega
      have hm := @embed_text_miss provider _ _ _ _ halk hwf hroom
      set st' := (embed_text provider model_id maxE st t).2.1 with hst'
      have hwf' : BackendWF st'.backend := hm.2.2
      have hsetsame : ((st'.backend.store.map Prod.fst) ++
          rest.map (cacheKey model_id)).toFinset =
          ((st.backend.store.map Prod.fst) ++
            (t :: rest).map (cacheKey model_id)).toFinset := by
        rw [hm.2.1]
        ext x
        simp only [List.toFinset_append, Finset.mem_union, List.map_append,
          List.map_cons, List.map_nil, List.toFinset_cons, Finset.mem_insert,
          List.toFinset_nil]
        constructor
        · intro h
          simp only [Finset.union_insert, Finset.union_empty,
            Finset.mem_insert, Finset.mem_union] at h ⊢
          tauto
        · intro h
          simp only [Finset.union_insert, Finset.union_empty,
            Finset.mem_insert, Finset.mem_union] at h ⊢
          tauto
      have hcard' : ((st'.backend.store.map Prod.fst) ++
          rest.map (cacheKey model_id)).toFinset.card ≤ maxE := by
        rw [hsetsame]; exact hcard
      obtain ⟨ihwf, ihpers, ihlog, ihmem, ihsub⟩ := ih st' hwf' hcard'
      have hlkst' : alookup (cacheKey model_id t) st'.backend.store =
          some (provider t) := by
        rw [hm.2.1, alookup_append_right halk]
        simp [alookup]
      refine ⟨ihwf, ?_, ?_, ?_, ?_⟩
      · intro k w h
        exact ihpers k w (by rw [hm.2.1]; exact alookup_append_left h)
      · intro t0 v0 h0
        rcases List.mem_cons.mp h0 with h0 | h0
        · cases h0
          rw [hm.1]
          exact ihpers _ _ hlkst'
        · exact ihlog t0 v0 h0
      · intro t0 h0
        rcases List.mem_cons.mp h0 with h0 | h0
        · subst h0
          rw [ihpers _ _ hlkst']; rfl
        · exact ihmem t0 h0
      · refine ihsub.trans ?_
        rw [hsetsame]

theorem probe_spec (model_id : String) :
    ∀ (texts : List String) (acc0 : List (Option (List ℚ)))
      (b0 : CacheBackendState),
      (∀ t ∈ texts, (alookup (cacheKey model_id t) b0.store).isSome) →
      (texts.foldl (probeStep model_id) (acc0, b0)).1 =
        acc0 ++ texts.map (fun t => alookup (cacheKey model_id t) b0.store) ∧
      (texts.foldl (probeStep model_id) (acc0, b0)).2.store = b0.store ∧
      (texts.foldl (probeStep model_id) (acc0, b0)).2.stats.misses =
        b0.stats.misses := by
  intro texts
  induction texts with
  | nil => intro acc0 b0 _; simp
  | cons t rest ih =>
    intro acc0 b0 hall
    obtain ⟨v, hv⟩ := Option.isSome_iff_exists.mp
      (hall t (List.mem_cons_self _ _))
    have hg := @backendGet_hit _ _ b0 hv
    have hstep : probeStep model_id (acc0, b0) t =
        (acc0 ++ [some v], (backendGet (cacheKey model_id t) b0).2) := by
      simp only [probeStep, hg.1]
    rw [List.foldl_cons, hstep]
    have hall' : ∀ t' ∈ rest,
        (alookup (cacheKey model_id t')
          (backendGet (cacheKey model_id t) b0).2.store).isSome := by
      intro t' ht'
      rw [hg.2.1]
      exact hall t' (List.mem_cons_of_mem _ ht')
    obtain ⟨ih1, ih2, ih3⟩ := ih (acc0 ++ [some v])
      (backendGet (cacheKey model_id t) b0).2 hall'
    refine ⟨?_, by rw [ih2, hg.2.1], by rw [ih3, hg.2.2.1]⟩
    rw [ih1, List.append_assoc, List.singleton_append, List.map_cons, hv]
    congr 2
    apply List.map_congr_left
    intro t' _
    rw [hg.2.1]

theorem embed_batch_all_hits (provider : String → List ℚ) (model_id : String)
    (maxE : ℕ) (st : CacheProviderState) (texts : List String)
    (hall : ∀ t ∈ texts, (alookup (cacheKey model_id t) st.backend.store).isSome) :
    (embed_batch provider model_id maxE st texts).1 =
      texts.map (fun t =>
        (alookup (cacheKey model_id t) st.backend.store).getD []) ∧
    (embed_batch provider model_id maxE st texts).2.2 = [] ∧
    (embed_batch provider model_id maxE st texts).2.1.wstats.misses =
      st.wstats.misses ∧
    (embed_batch provider model_id maxE st texts).2.1.backend.stats.misses =
      st.backend.stats.misses ∧
    (embed_batch provider model_id maxE st texts).2.1.backend.store =
      st.backend.store := by
  obtain ⟨hp1, hp2, hp3⟩ := probe_spec model_id texts [] st.backend hall
  have hres : (texts.foldl (probeStep model_id) ([], st.backend)).1 =
      texts.map (fun t => alookup (cacheKey model_id t) st.backend.store) := by
    rw [hp1]; rfl
  have hzipself : ∀ (l : List String) (f : String → Option (List ℚ)),
      l.zip (l.map f) = l.map (fun a => (a, f a)) := by
    intro l f
    induction l with
    | nil => rfl
    | cons x xs ih => simp [ih]
  have hmiss : (texts.zip
      (texts.foldl (probeStep model_id) ([], st.backend)).1).filterMap
        (fun p => if p.2 = none then some p.1 else none) = [] := by
    rw [hres, hzipself, List.filterMap_map]
    rw [List.filterMap_eq_nil_iff]
    intro t ht
    obtain ⟨v, hv⟩ := Option.isSome_iff_exists.mp (hall t ht)
    simp [Function.comp, hv]
  refine ⟨?_, ?_, ?_, ?_, ?_⟩
  · simp only [embed_batch, hmiss]
    rw [if_pos trivial, hres, List.map_map]
    rfl
  · simp only [embed_batch, hmiss]
    rw [if_pos trivial]
  · simp only [embed_batch, hmiss]
    rw [if_pos trivial]
  · simp only [embed_batch, hmiss]
    rw [if_pos trivial]
    exact hp3
  · simp only [embed_batch, hmiss]
    rw [if_pos trivial]
    exact hp2

/-- C6: after every text in `texts` has been embedded through
`embed_text` on a fresh `CachingEmbeddingProvider` (as part of any call
sequence `prior`), and the number of distinct cache keys of `prior` is at
most the backend's `max_entries` (so nothing was evicted),
`embed_batch texts` returns exactly the cached vectors — the ones the
earlier `embed_text` calls returned — makes no call to the inner
provider, and leaves both the wrapper's and the backend's miss counts
unchanged. -/
theorem C6_embed_batch_cache_correctness (provider : String → List ℚ)
    (model_id : String) (maxE : ℕ) (prior texts : List String)
    (h1 : ∀ t ∈ texts, t ∈ prior)
    (h2 : ((prior.map (cacheKey model_id)).dedup).length ≤ maxE) :
    (embed_batch provider model_id maxE
        (runEmbedTexts provider model_id maxE prior initCacheState).1 texts).1 =
      texts.map (fun t => (alookup (cacheKey model_id t)
        (runEmbedTexts provider model_id maxE prior
          initCacheState).1.backend.store).getD []) ∧
    (embed_batch provider model_id maxE
        (runEmbedTexts provider model_id maxE prior initCacheState).1 texts).2.2
      = [] ∧
    (embed_batch provider model_id maxE
        (runEmbedTexts provider model_id maxE prior
          initCacheState).1 texts).2.1.wstats.misses =
      (runEmbedTexts provider model_id maxE prior
        initCacheState).1.wstats.misses ∧
    (embed_batch provider model_id maxE
        (runEmbedTexts provider model_id maxE prior
          initCacheState).1 texts).2.1.backend.stats.misses =
      (runEmbedTexts provider model_id maxE prior
        initCacheState).1.backend.stats.misses ∧
    (∀ t v, (t, v) ∈ (runEmbedTexts provider model_id maxE prior
        initCacheState).2 →
      alookup (cacheKey model_id t)
        (runEmbedTexts provider model_id maxE prior
          initCacheState).1.backend.store = some v) := by
  have hcard : ((initCacheState.backend.store.map Prod.fst) ++
      prior.map (cacheKey model_id)).toFinset.card ≤ maxE := by
    simp only [initCacheState, List.map_nil, List.nil_append]
    rw [List.card_toFinset]
    exact h2
  obtain ⟨_, _, hlog, hmem, _⟩ := runPrior_spec provider model_id maxE prior
    initCacheState backendWF_init hcard
  have hall : ∀ t ∈ texts, (alookup (cacheKey model_id t)
      (runEmbedTexts provider model_id maxE prior
        initCacheState).1.backend.store).isSome :=
    fun t ht => hmem t (h1 t ht)
  obtain ⟨hb1, hb2, hb3, hb4, _⟩ := embed_batch_all_hits provider model_id maxE
    (runEmbedTexts provider model_id maxE prior initCacheState).1 texts hall
  exact ⟨hb1, hb2, hb3, hb4, hlog⟩

set_option maxRecDepth 4000 in
/-- C6 witness: two texts cached individually, then re-embedded as a
batch — at a concrete provider and capacity. -/
theorem C6_embed_batch_cache_correctness_witness :
    (embed_batch (fun t => [(t.length : ℚ)]) "m" 10
        (runEmbedTexts (fun t => [(t.length : ℚ)]) "m" 10 ["alpha", "bee"]
          initCacheState).1 ["bee", "alpha"]).1 =
      ["bee", "alpha"].map (fun t => (alookup (cacheKey "m" t)
        (runEmbedTexts (fun t => [(t.length : ℚ)]) "m" 10 ["alpha", "bee"]
          initCacheState).1.backend.store).getD []) ∧
    (embed_batch (fun t => [(t.length : ℚ)]) "m" 10
        (runEmbedTexts (fun t => [(t.length : ℚ)]) "m" 10 ["alpha", "bee"]
          initCacheState).1 ["bee", "alpha"]).2.2 = [] ∧
    (embed_batch (fun t => [(t.length : ℚ)]) "m" 10
        (runEmbedTexts (fun t => [(t.length : ℚ)]) "m" 10 ["alpha", "bee"]
          initCacheState).1 ["bee", "alpha"]).2.1.wstats.misses =
      (runEmbedTexts (fun t => [(t.length : ℚ)]) "m" 10 ["alpha", "bee"]
        initCacheState).1.wstats.misses ∧
    (embed_batch (fun t => [(t.length : ℚ)]) "m" 10
        (runEmbedTexts (fun t => [(t.length : ℚ)]) "m" 10 ["alpha", "bee"]
          initCacheState).1 ["bee", "alpha"]).2.1.backend.stats.misses =
      (runEmbedTexts (fun t => [(t.length : ℚ)]) "m" 10 ["alpha", "bee"]
        initCacheState).1.backend.stats.misses ∧
    (∀ t v, (t, v) ∈ (runEmbedTexts (fun t => [(t.length : ℚ)]) "m" 10
        ["alpha", "bee"] initCacheState).2 →
      alookup (cacheKey "m" t)
        (runEmbedTexts (fun t => [(t.length : ℚ)]) "m" 10 ["alpha", "bee"]
          initCacheState).1.backend.store = some v) :=
  C6_embed_batch_cache_correctness (fun t => [(t.length : ℚ)]) "m" 10
    ["alpha", "bee"] ["bee", "alpha"] (by decide) (by decide)

/-! ## Vector stores (vector_stores.py)

The store state is the `chunk_id`-keyed dict of stored chunks in insertion
order.  `InMemoryVectorStore` keeps `DocumentChunk` objects directly;
`FAISSVectorStore` keeps a vectors dict plus a SQLite metadata table, both
keyed by `chunk_id` and written together on every insert, so one chunk
list models both (FAISS row lookups are per-id, so the table's row order
never matters on the embedded paths). -/

/-- Descending-by-score sort order (Python
`sort(key=lambda x: score(x), reverse=True)` — stable). -/
def byScoreDesc {α : Type} (f : α → ℝ) (a b : α) : Prop := f b ≤ f a

noncomputable instance byScoreDesc.decRel {α : Type} (f : α → ℝ) :
    DecidableRel (byScoreDesc f) :=
  fun a b => inferInstanceAs (Decidable (f b ≤ f a))

instance byScoreDesc.total {α : Type} (f : α → ℝ) :
    IsTotal α (byScoreDesc f) := ⟨fun a b => le_total (f b) (f a)⟩

instance byScoreDesc.trans {α : Type} (f : α → ℝ) :
    IsTrans α (byScoreDesc f) := ⟨fun _ _ _ h1 h2 => le_trans h2 h1⟩

/-- Python truthiness of `chunk.embedding` negated: `not chunk.embedding`
is true for `None` and for an empty vector. -/
def embMissing (c : DocumentChunk) : Bool :=
  match c.embedding with
  | none => true
  | some v => v.isEmpty

/-- String-keyed dict lookup (first match). -/
def mlookup (k : String) : List (String × String) → Option String
  | [] => none
  | e :: rest => if e.1 = k then some e.2 else mlookup k rest

/-- `_apply_filters(chunk, filters)`: a conjunction; `doc_id` compares the
chunk's doc id, other keys compare metadata when present, unknown keys
pass. -/
def apply_filters (c : DocumentChunk) (filters : List (String × String)) : Bool :=
  filters.all (fun kv =>
    if kv.1 = "doc_id" then c.doc_id == kv.2
    else
      match mlookup kv.1 c.metadata with
      | some w => w == kv.2
      | none => true)

/-- `self.chunks[chunk.chunk_id] = chunk`: dict write, keeping the
position of an existing key. -/
def upsertChunk (c : DocumentChunk) (st : List DocumentChunk) :
    List DocumentChunk :=
  if st.any (fun e => e.chunk_id == c.chunk_id) then
    st.map (fun e => if e.chunk_id == c.chunk_id then c else e)
  else st ++ [c]

/-- `InMemoryVectorStore.add_chunks`: stores every chunk unconditionally
and reports success (no embedding check). -/
def add_chunks_mem (st : List DocumentChunk) (chunks : List DocumentChunk) :
    List DocumentChunk × Bool :=
  (chunks.foldl (fun s c => upsertChunk c s) st, true)

/-- `FAISSVectorStore.add_chunks`: raises `VectorStoreError` at the first
chunk whose embedding is falsy (`None` or empty); earlier chunks of the
batch have already been written when that happens, but the error result
here only records that the call failed. -/
def add_chunks_faiss (st : List DocumentChunk) :
    List DocumentChunk → Except String (List DocumentChunk)
  | [] => Except.ok st
  | c :: rest =>
      if embMissing c then Except.error (c.chunk_id ++ " missing embedding")
      else add_chunks_faiss (upsertChunk c st) rest

/-- `SELECT * FROM chunks WHERE chunk_id = ?` / vectors-dict lookup. -/
def findChunk (cid : String) : List DocumentChunk → Option DocumentChunk
  | [] => none
  | c :: rest => if c.chunk_id = cid then some c else findChunk cid rest

/-- `InMemoryVectorStore.search`: skip chunks with falsy embeddings,
apply filters (when a non-empty filter dict is given), score by cosine
similarity, sort descending (stable), truncate to `top_k`, assign ranks. -/
noncomputable def searchMem (st : List DocumentChunk)
    (query_embedding : List ℝ) (top_k : ℕ)
    (filters : List (String × String)) : List RetrievalResult :=
  let sims := st.filterMap (fun c =>
    if embMissing c then none
    else if filters ≠ [] ∧ ¬apply_filters c filters then none
    else some (c, cosine_similarity query_embedding (c.embedding.getD [])))
  let top := (List.insertionSort (byScoreDesc (fun p => p.2)) sims).take top_k
  top.enum.map (fun p =>
    { chunk := p.2.1, score := p.2.2, rank := p.1,
      retrieval_method := "memory_cosine" })

/-- `FAISSVectorStore.search`: score every stored vector, sort descending
(stable), truncate to `top_k`, then reconstruct each chunk from the
metadata table and apply the filters (after truncation — unlike the
in-memory store). -/
noncomputable def searchFaiss (st : List DocumentChunk)
    (query_embedding : List ℝ) (top_k : ℕ)
    (filters : List (String × String)) : List RetrievalResult :=
  let sims := st.map (fun c =>
    (c.chunk_id, cosine_similarity query_embedding (c.embedding.getD [])))
  let top := (List.insertionSort (byScoreDesc (fun p => p.2)) sims).take top_k
  top.enum.filterMap (fun p =>
    match findChunk p.2.1 st with
    | none => none
    | some c =>
        if filters ≠ [] ∧ ¬apply_filters c filters then none
        else some { chunk := c, score := p.2.2, rank := p.1,
                    retrieval_method := "faiss_cosine" })

/-- `InMemoryVectorStore.list_chunks(doc_id, limit, offset)`. -/
def list_chunks_mem (st : List DocumentChunk) (doc_id : Option String)
    (limit offset : ℕ) : List DocumentChunk :=
  let chunks : List DocumentChunk := match doc_id with
    | some d => st.filter (fun c => c.doc_id == d)
    | none => st
  (chunks.drop offset).take limit

/-! ## Retriever (engine.py, `StandardRetriever`)

The retriever is generic over its vector store; `vsearch` stands for
`self.vector_store.search` and `vlist` for `self.vector_store.list_chunks`
(instantiated with the store embeddings above where a claim needs a
concrete store). -/

/-- `StandardRetriever` configuration fields the embedded paths read. -/
structure RetrieverConfig where
  enable_rerank : Bool
  query_expansion : Bool
  mmr_lambda : ℝ

/-- `query.lower().split()`: split on whitespace runs, dropping empties. -/
def splitWs (s : String) : List String :=
  (s.toLower.split Char.isWhitespace).filter (fun t => t ≠ "")

/-- Python's `needle in hay` on strings (substring containment). -/
def containsSub : List Char → List Char → Bool
  | needle, [] => needle.isEmpty
  | needle, c :: rest => needle.isPrefixOf (c :: rest) || containsSub needle rest

/-- `_keyword_search(query, query_obj)`: list at most 1000 chunks, score
by `matches / len(query_terms)` keeping only chunks with a match, sort
descending, re-rank, truncate to `top_k`. -/
noncomputable def keyword_search
    (vlist : Option String → ℕ → ℕ → List DocumentChunk)
    (query : String) (q : RetrievalQuery) : List RetrievalResult :=
  let all_chunks := vlist none 1000 0
  let query_terms := splitWs query
  let results := all_chunks.filterMap (fun c =>
    let nMatch := (query_terms.filter
      (fun term => containsSub term.data c.content.toLower.data)).length
    if 0 < nMatch then
      some { chunk := c, score := (nMatch : ℝ) / (query_terms.length : ℝ),
             rank := 0, retrieval_method := "keyword_search" }
    else none)
  let sorted := List.insertionSort (byScoreDesc RetrievalResult.score) results
  (sorted.enum.map (fun p => { p.2 with rank := p.1 })).take q.top_k

/-- `_similarity_search`: `top_k × 2` candidates from the store, tagged. -/
def similarity_search
    (vsearch : List ℝ → ℕ → List (String × String) → List RetrievalResult)
    (query_embedding : List ℝ) (q : RetrievalQuery) : List RetrievalResult :=
  (vsearch query_embedding (q.top_k * 2) q.filters).map
    (fun r => { r with retrieval_method := "similarity_search" })

/-- One step of `_merge_search_results`' first loop:
`result_dict[chunk_id] = result; result.score *= vector_weight`
(the dict write keeps an existing key's position). -/
def vwStep (vw : ℝ) (acc : List RetrievalResult) (r : RetrievalResult) :
    List RetrievalResult :=
  let r' := { r with score := r.score * vw }
  if acc.any (fun e => e.chunk.chunk_id == r.chunk.chunk_id) then
    acc.map (fun e => if e.chunk.chunk_id == r.chunk.chunk_id then r' else e)
  else acc ++ [r']

/-- One step of `_merge_search_results`' second loop: add
`result.score * keyword_weight` to an existing entry with the same chunk
id, or append the weighted keyword result. -/
def kwStep (kw : ℝ) (acc : List RetrievalResult) (r : RetrievalResult) :
    List RetrievalResult :=
  if acc.any (fun e => e.chunk.chunk_id == r.chunk.chunk_id) then
    acc.map (fun e =>
      if e.chunk.chunk_id == r.chunk.chunk_id then
        { e with score := e.score + r.score * kw }
      else e)
  else acc ++ [{ r with score := r.score * kw }]

/-- `_merge_search_results`: weighted fusion keyed by chunk id — vector
results first (score × vw), then keyword results (score × kw) added to an
existing entry or appended — then a stable descending sort and ranks. -/
noncomputable def merge_search_results (vres kres : List RetrievalResult)
    (vw kw : ℝ) : List RetrievalResult :=
  let base := vres.foldl (vwStep vw) []
  let combined := kres.foldl (kwStep kw) base
  let sorted := List.insertionSort (byScoreDesc RetrievalResult.score) combined
  sorted.enum.map (fun p => { p.2 with rank := p.1 })

/-- `_hybrid_search`: similarity and keyword results merged 0.7/0.3,
tagged, truncated to `top_k`. -/
noncomputable def hybrid_search
    (vsearch : List ℝ → ℕ → List (String × String) → List RetrievalResult)
    (vlist : Option String → ℕ → ℕ → List DocumentChunk)
    (query : String) (query_embedding : List ℝ)
    (q : RetrievalQuery) : List RetrievalResult :=
  let vres := similarity_search vsearch query_embedding q
  let kres := keyword_search vlist query q
  let combined := merge_search_results vres kres 0.7 0.3
  (combined.map (fun r => { r with retrieval_method := "hybrid_search" })).take
    q.top_k

/-! ### MMR (engine.py `_mmr_search`)

Python's `remaining.remove(x)` deletes the first element `==`-equal to
`x`; dataclass equality is field equality, and since the scan always
returns the first candidate attaining its maximum (ties lose to the
earlier candidate under the strict `>` update), that first `==`-equal
element is the scanned one itself whenever the candidates do not already
carry the method tag `mmr_search` (true for every store implementation in
the repository).  `List.erase` therefore models the removal. -/

/-- The inner `max_selected_sim` computation: 0 when the candidate's
embedding is falsy, otherwise the running maximum (seeded with 0) of
cosine similarities to the already-selected results that have a truthy
embedding. -/
noncomputable def mmrMaxSelSim (selected : List RetrievalResult)
    (cand : RetrievalResult) : ℝ :=
  if embMissing cand.chunk then 0
  else selected.foldl (fun m s =>
    if embMissing s.chunk then m
    else max m (cosine_similarity (cand.chunk.embedding.getD [])
      (s.chunk.embedding.getD []))) 0

/-- `mmr_score = λ · query_sim − (1 − λ) · max_selected_sim`. -/
noncomputable def mmr_score (lam : ℝ) (selected : List RetrievalResult)
    (cand : RetrievalResult) : ℝ :=
  lam * cand.score - (1 - lam) * mmrMaxSelSim selected cand

/-- The candidate scan of `_mmr_search`'s inner loop: running
`best_score`/`best_result` pair, updated on strict improvement. -/
noncomputable def pyBestScan {α : Type} (f : α → ℝ) :
    List α → ℝ → Option α → Option α
  | [], _, best => best
  | c :: rest, bs, best =>
      if bs < f c then pyBestScan f rest (f c) (some c)
      else pyBestScan f rest bs best

/-- Python `max(l, key=f)` on the non-empty list `b :: rest` (ties keep
the earlier element). -/
noncomputable def pyMax {α : Type} (f : α → ℝ) : α → List α → α
  | best, [] => best
  | best, c :: rest =>
      if f best < f c then pyMax f c rest else pyMax f best rest

noncomputable instance : DecidableEq RetrievalResult := Classical.decEq _

/-- The `while len(selected) < top_k and remaining` loop of `_mmr_search`.
Each pass either selects (and removes) one candidate or breaks, so
`remaining.length` iterations suffice; the fuel only makes the recursion
structural. -/
noncomputable def mmrLoop (lam : ℝ) (topk : ℕ) :
    ℕ → List RetrievalResult → List RetrievalResult → List RetrievalResult
  | 0, selected, _ => selected
  | fuel + 1, selected, remaining =>
      if selected.length < topk ∧ remaining ≠ [] then
        match pyBestScan (mmr_score lam selected) remaining (-1) none with
        | some best =>
            mmrLoop lam topk fuel
              (selected ++ [{ best with retrieval_method := "mmr_search" }])
              (remaining.erase best)
        | none => selected
      else selected

/-- `_mmr_search`: `top_k × 3` similarity candidates; the highest-scoring
one first; then the MMR loop. -/
noncomputable def mmr_search
    (vsearch : List ℝ → ℕ → List (String × String) → List RetrievalResult)
    (lam : ℝ) (query_embedding : List ℝ)
    (q : RetrievalQuery) : List RetrievalResult :=
  let initial := vsearch query_embedding (q.top_k * 3) q.filters
  match initial with
  | [] => []
  | c0 :: rest0 =>
      let best := pyMax RetrievalResult.score c0 rest0
      mmrLoop lam q.top_k initial.length [best] (initial.erase best)

/-! ### Query expansion, rerank, and the retrieve pipeline -/

/-- The deterministic synonym table of `_expand_query`. -/
def expansion_map : List (String × List String) :=
  [("搜索", ["查找", "检索", "寻找"]),
   ("文档", ["文件", "资料", "材料"]),
   ("信息", ["数据", "内容", "资讯"]),
   ("分析", ["解析", "研究", "评估"])]

/-- `_expand_query`: append the synonyms of every table term contained in
the query, joined by spaces. -/
def expand_query (query : String) : String :=
  String.intercalate " "
    (expansion_map.foldl (fun acc p =>
      if containsSub p.1.data query.data then acc ++ p.2 else acc) [query])

/-- `_calculate_query_match`: matched-term fraction (0 for an empty term
list). -/
noncomputable def calculate_query_match (content query : String) : ℝ :=
  let terms := splitWs query
  if terms = [] then 0
  else ((terms.filter
    (fun t => containsSub t.data content.toLower.data)).length : ℝ) /
    (terms.length : ℝ)

/-- `_rerank_results`: score ← 0.6·score + 0.2·min(len/1000, 1) +
0.2·query-match, then a stable descending re-sort and fresh ranks. -/
noncomputable def rerank_results (results : List RetrievalResult)
    (query : String) : List RetrievalResult :=
  let updated := results.map (fun r =>
    { r with score := (r.score * 0.6 +
        min ((r.chunk.content.length : ℝ) / 1000) 1.0 * 0.2 +
        calculate_query_match r.chunk.content query * 0.2) })
  let sorted := List.insertionSort (byScoreDesc RetrievalResult.score) updated
  sorted.enum.map (fun p => { p.2 with rank := p.1 })

/-- `StandardRetriever.retrieve`: optional expansion; embedding (a
supplied non-empty `query_embedding` wins, otherwise `embedOutcome` is
what `embed_text` produced — `none` when it raised); strategy dispatch
with keyword degrade; optional rerank; threshold filter; `top_k` cut. -/
noncomputable def retrieve (cfg : RetrieverConfig)
    (vsearch : List ℝ → ℕ → List (String × String) → List RetrievalResult)
    (vlist : Option String → ℕ → ℕ → List DocumentChunk)
    (embedOutcome : Option (List ℝ))
    (q : RetrievalQuery) : List RetrievalResult :=
  let expanded := if q.expand_query || cfg.query_expansion
    then expand_query q.query else q.query
  let query_embedding : Option (List ℝ) :=
    match q.query_embedding with
    | some v => if v = [] then embedOutcome else some v
    | none => embedOutcome
  let results : List RetrievalResult :=
    match q.strategy, query_embedding with
    | RetrievalStrategy.keyword, _ => keyword_search vlist expanded q
    | RetrievalStrategy.similarity, some emb => similarity_search vsearch emb q
    | RetrievalStrategy.mmr, some emb => mmr_search vsearch cfg.mmr_lambda emb q
    | RetrievalStrategy.hybrid, some emb =>
        hybrid_search vsearch vlist expanded emb q
    | RetrievalStrategy.semantic_hybrid, some emb =>
        hybrid_search vsearch vlist expanded emb q
    | _, none => keyword_search vlist expanded q
  let results := if q.rerank || cfg.enable_rerank
    then rerank_results results q.query else results
  let results := results.filter (fun r => decide (q.threshold ≤ r.score))
  results.take q.top_k

/-! ## C2 and C10 -/

theorem filter_take_spec (l : List RetrievalResult) (θ : ℝ) (k : ℕ) :
    ((l.filter (fun r => decide (θ ≤ r.score))).take k).length ≤ k ∧
    ∀ r ∈ (l.filter (fun r => decide (θ ≤ r.score))).take k, θ ≤ r.score := by
  constructor
  · exact List.length_take_le k _
  · intro r hr
    have h1 : r ∈ l.filter (fun r => decide (θ ≤ r.score)) :=
      List.mem_of_mem_take hr
    have h2 := (List.mem_filter.mp h1).2
    simpa using h2

/-- C2: whatever the strategy dispatch and optional rerank produced,
`retrieve` drops every result scoring below `query.threshold` and then
truncates to `query.top_k`, so each returned result has
`score ≥ threshold` and at most `top_k` results are returned. -/
theorem C2_retrieve_threshold_topk (cfg : RetrieverConfig)
    (vsearch : List ℝ → ℕ → List (String × String) → List RetrievalResult)
    (vlist : Option String → ℕ → ℕ → List DocumentChunk)
    (embedOutcome : Option (List ℝ)) (q : RetrievalQuery) :
    (retrieve cfg vsearch vlist embedOutcome q).length ≤ q.top_k ∧
    ∀ r ∈ retrieve cfg vsearch vlist embedOutcome q, q.threshold ≤ r.score := by
  simp only [retrieve]
  exact filter_take_spec _ q.threshold q.top_k

theorem mem_enum_snd {α : Type} {p : ℕ × α} {l : List α} (h : p ∈ l.enum) :
    p.2 ∈ l := by
  rw [List.enum_eq_zip_range] at h
  exact (List.of_mem_zip h).2

theorem keyword_search_chunk_mem
    (vlist : Option String → ℕ → ℕ → List DocumentChunk)
    (query : String) (q : RetrievalQuery) :
    ∀ r ∈ keyword_search vlist query q, r.chunk ∈ vlist none 1000 0 := by
  intro r hr
  simp only [keyword_search] at hr
  have hr1 := List.mem_of_mem_take hr
  obtain ⟨p, hp, rfl⟩ := List.mem_map.mp hr1
  have hp2 := mem_enum_snd hp
  have hp3 : p.2 ∈ List.filterMap _ (vlist none 1000 0) :=
    ((List.perm_insertionSort _ _).mem_iff).mp hp2
  obtain ⟨c, hc, hfc⟩ := List.mem_filterMap.mp hp3
  show p.2.chunk ∈ vlist none 1000 0
  by_cases h0 : 0 < (List.filter
      (fun term => containsSub term.data c.content.toLower.data)
      (splitWs query)).length
  · rw [if_pos h0] at hfc
    have hx := Option.some.inj hfc
    rw [← hx]
    exact hc
  · rw [if_neg h0] at hfc
    cases hfc

theorem rerank_chunk_mem (results : List RetrievalResult) (query : String) :
    ∀ r ∈ rerank_results results query, ∃ r₀ ∈ results, r.chunk = r₀.chunk := by
  intro r hr
  simp only [rerank_results] at hr
  obtain ⟨p, hp, rfl⟩ := List.mem_map.mp hr
  have hp2 := mem_enum_snd hp
  have hp3 := ((List.perm_insertionSort _ _).mem_iff).mp hp2
  obtain ⟨r₀, hr₀, hx⟩ := List.mem_map.mp hp3
  refine ⟨r₀, hr₀, ?_⟩
  show p.2.chunk = r₀.chunk
  rw [← hx]

theorem list_chunks_mem_none (st : List DocumentChunk) (limit : ℕ) :
    list_chunks_mem st none limit 0 = st.take limit := by
  simp [list_chunks_mem]

/-- The pipeline tail shared by the retrieve lemmas: optional rerank,
threshold filter and truncation never introduce a chunk that was not in
the dispatched result list. -/
theorem retrieve_tail_chunk_mem (base : List RetrievalResult) (query : String)
    (θ : ℝ) (k : ℕ) (useRerank : Bool) :
    ∀ r ∈ ((if useRerank then rerank_results base query else base).filter
        (fun r => decide (θ ≤ r.score))).take k,
      ∃ r₀ ∈ base, r.chunk = r₀.chunk := by
  intro r hr
  have h1 := List.mem_of_mem_filter (List.mem_of_mem_take hr)
  cases useRerank with
  | false => exact ⟨r, by simpa using h1, rfl⟩
  | true =>
    rw [if_pos rfl] at h1
    exact rerank_chunk_mem base query r h1

/-- With no embedding available (`embed_text` raised, and the supplied
`query_embedding` was `None` or empty, hence falsy), every strategy of
`retrieve` falls back to the keyword path. -/
theorem retrieve_none_embedding (cfg : RetrieverConfig)
    (vsearch : List ℝ → ℕ → List (String × String) → List RetrievalResult)
    (vlist : Option String → ℕ → ℕ → List DocumentChunk)
    (q : RetrievalQuery)
    (hq : q.query_embedding = none ∨ q.query_embedding = some []) :
    retrieve cfg vsearch vlist none q =
      ((if q.rerank || cfg.enable_rerank then
          rerank_results (keyword_search vlist
            (if q.expand_query || cfg.query_expansion
              then expand_query q.query else q.query) q) q.query
        else keyword_search vlist
          (if q.expand_query || cfg.query_expansion
            then expand_query q.query else q.query) q).filter
        (fun r => decide (q.threshold ≤ r.score))).take q.top_k := by
  simp only [retrieve]
  rcases hq with h | h
  · rw [h]
    cases q.strategy <;> rfl
  · rw [h]
    have hred : (match some ([] : List ℝ) with
        | some v => if v = [] then (none : Option (List ℝ)) else some v
        | none => none) = none := if_pos rfl
    rw [hred]
    cases q.strategy <;> rfl

/-- C10: keyword search scores only the chunks returned by
`list_chunks(limit=1000)` — for the in-memory store, the first 1000
stored chunks — so a chunk beyond the first 1000 is never returned by the
keyword strategy however well it matches; and whenever the query
embedding is unavailable (`embed_text` raised and no usable precomputed
vector was supplied), every strategy degrades to that same keyword path,
so the whole `retrieve` call returns only chunks among the first 1000
listed. -/
theorem C10_keyword_search_limit_1000 :
    (∀ (st : List DocumentChunk) (query : String) (q : RetrievalQuery),
      ∀ r ∈ keyword_search (list_chunks_mem st) query q,
        r.chunk ∈ st.take 1000) ∧
    (∀ (cfg : RetrieverConfig)
      (vsearch : List ℝ → ℕ → List (String × String) → List RetrievalResult)
      (st : List DocumentChunk) (q : RetrievalQuery),
      (q.query_embedding = none ∨ q.query_embedding = some []) →
      ∀ r ∈ retrieve cfg vsearch (list_chunks_mem st) none q,
        r.chunk ∈ st.take 1000) := by
  have hkw : ∀ (st : List DocumentChunk) (query : String) (q : RetrievalQuery),
      ∀ r ∈ keyword_search (list_chunks_mem st) query q,
        r.chunk ∈ st.take 1000 := by
    intro st query q r hr
    have := keyword_search_chunk_mem (list_chunks_mem st) query q r hr
    rwa [list_chunks_mem_none] at this
  refine ⟨hkw, ?_⟩
  intro cfg vsearch st q hemb r hr
  rw [retrieve_none_embedding cfg vsearch (list_chunks_mem st) q hemb] at hr
  obtain ⟨r₀, hr₀, hchunk⟩ := retrieve_tail_chunk_mem _ q.query q.threshold
    q.top_k (q.rerank || cfg.enable_rerank) r hr
  rw [hchunk]
  exact hkw st _ q r₀ hr₀

/-! ## C5 -/

/-- A chunk without an embedding, for the concrete store runs. -/
def chunkNoEmb : DocumentChunk :=
  { content := "c", chunk_id := "c0", doc_id := "d", chunk_index := 0,
    start_char := 0, end_char := 1, metadata := [], embedding := none }

/-- C5 (amended): the FAISS store's `add_chunks` raises `VectorStoreError`
whenever some chunk's embedding is falsy and never reports success on such
a batch; the in-memory store instead accepts every chunk and reports
success, but its `search` never returns a chunk whose embedding is
falsy. -/
theorem C5_add_chunks_missing_embedding :
    (∀ (st chunks : List DocumentChunk),
      (∃ c ∈ chunks, embMissing c) →
      (add_chunks_faiss st chunks).isOk = false) ∧
    (∀ (st chunks : List DocumentChunk), (add_chunks_mem st chunks).2 = true) ∧
    (∀ (st : List DocumentChunk) (emb : List ℝ) (topk : ℕ)
      (filters : List (String × String)),
      ∀ r ∈ searchMem st emb topk filters, embMissing r.chunk = false) := by
  refine ⟨?_, fun st chunks => rfl, ?_⟩
  · intro st chunks
    induction chunks generalizing st with
    | nil => rintro ⟨c, hc, _⟩; cases hc
    | cons c rest ih =>
      rintro ⟨c', hc', hm⟩
      rw [add_chunks_faiss]
      by_cases hcm : embMissing c
      · rw [if_pos hcm]; rfl
      · rw [if_neg hcm]
        rcases List.mem_cons.mp hc' with rfl | hmem
        · exact absurd hm hcm
        · exact ih (upsertChunk c st) ⟨c', hmem, hm⟩
  · intro st emb topk filters r hr
    simp only [searchMem] at hr
    obtain ⟨p, hp, rfl⟩ := List.mem_map.mp hr
    have hp2 := mem_enum_snd hp
    have hp3 := List.mem_of_mem_take hp2
    have hp4 := ((List.perm_insertionSort _ _).mem_iff).mp hp3
    obtain ⟨c, _, hfc⟩ := List.mem_filterMap.mp hp4
    show embMissing p.2.1 = false
    by_cases hcm : embMissing c
    · rw [if_pos hcm] at hfc
      cases hfc
    · rw [if_neg hcm] at hfc
      by_cases hfil : filters ≠ [] ∧ ¬apply_filters c filters
      · rw [if_pos hfil] at hfc
        cases hfc
      · rw [if_neg hfil] at hfc
        have hx := Option.some.inj hfc
        have h1 : p.2.1 = c := by rw [← hx]
        rw [h1]
        exact Bool.not_eq_true _ ▸ eq_false_of_ne_true hcm

/-- C5 counterexample: the in-memory store's `add_chunks` accepts a batch
containing a chunk without an embedding — it reports success and stores
the chunk — instead of raising `VectorStoreError`. -/
theorem C5_counterexample :
    embMissing chunkNoEmb = true ∧
    (add_chunks_mem [] [chunkNoEmb]).2 = true ∧
    (add_chunks_mem [] [chunkNoEmb]).1 = [chunkNoEmb] :=
  ⟨rfl, rfl, rfl⟩

/-! ## C7 -/

theorem mem_enumFrom_snd {α : Type} :
    ∀ {l : List α} {n : ℕ} {p : ℕ × α}, p ∈ l.enumFrom n → p.2 ∈ l := by
  intro l
  induction l with
  | nil => intro n p h; cases h
  | cons a l ih =>
    intro n p h
    rw [List.enumFrom_cons] at h
    rcases List.mem_cons.mp h with rfl | h
    · exact List.mem_cons_self _ _
    · exact List.mem_cons_of_mem _ (ih h)

theorem pairwise_enumFrom {α : Type} {R : α → α → Prop} :
    ∀ (l : List α) (n : ℕ), l.Pairwise R →
      (l.enumFrom n).Pairwise (fun p q => R p.2 q.2) := by
  intro l
  induction l with
  | nil => intro n _; simp
  | cons a l ih =>
    intro n h
    rw [List.enumFrom_cons]
    rcases List.pairwise_cons.mp h with ⟨ha, hl⟩
    refine List.pairwise_cons.mpr ⟨?_, ih (n + 1) hl⟩
    intro q hq
    exact ha q.2 (mem_enumFrom_snd hq)

theorem vw_fold_spec (vw : ℝ) :
    ∀ (vl acc : List RetrievalResult),
      ((acc.map (fun r => r.chunk.chunk_id)) ++
        vl.map (fun r => r.chunk.chunk_id)).Nodup →
      vl.foldl (vwStep vw) acc =
        acc ++ vl.map (fun r => { r with score := r.score * vw }) := by
  intro vl
  induction vl with
  | nil => intro acc _; simp
  | cons r rest ih =>
    intro acc hnd
    have hnotin : r.chunk.chunk_id ∉ acc.map (fun r => r.chunk.chunk_id) := by
      rw [List.nodup_append] at hnd
      intro hmem
      exact hnd.2.2 hmem (by simp)
    have hany : acc.any (fun e => e.chunk.chunk_id == r.chunk.chunk_id) = false := by
      rw [List.any_eq_false]
      intro e he heq
      rw [beq_iff_eq] at heq
      exact hnotin (heq ▸ List.mem_map_of_mem (fun r => r.chunk.chunk_id) he)
    have hstep : vwStep vw acc r = acc ++ [{ r with score := r.score * vw }] := by
      simp only [vwStep, hany, Bool.false_eq_true, if_false]
    rw [List.foldl_cons, hstep, ih]
    · simp
    · simp only [List.map_append, List.map_cons, List.map_nil]
      rw [List.append_assoc]
      simpa using hnd

theorem kwStep_map_id (kw : ℝ) (acc : List RetrievalResult)
    (r : RetrievalResult) :
    (kwStep kw acc r).map (fun e => e.chunk.chunk_id) =
      if acc.any (fun e => e.chunk.chunk_id == r.chunk.chunk_id) then
        acc.map (fun e => e.chunk.chunk_id)
      else acc.map (fun e => e.chunk.chunk_id) ++ [r.chunk.chunk_id] := by
  by_cases h : acc.any (fun e => e.chunk.chunk_id == r.chunk.chunk_id)
  · rw [kwStep, if_pos h, if_pos h, List.map_map]
    apply List.map_congr_left
    intro e _
    by_cases he : e.chunk.chunk_id == r.chunk.chunk_id
    · simp only [Function.comp, he, if_true]
    · simp only [Function.comp, he, Bool.false_eq_true, if_false]
  · rw [kwStep, if_neg h, if_neg h, List.map_append, List.map_cons,
      List.map_nil]

theorem mem_kwStep_of_ne (kw : ℝ) {acc : List RetrievalResult}
    {e : RetrievalResult} (r : RetrievalResult) (he : e ∈ acc)
    (hne : e.chunk.chunk_id ≠ r.chunk.chunk_id) : e ∈ kwStep kw acc r := by
  rw [kwStep]
  by_cases h : acc.any (fun e => e.chunk.chunk_id == r.chunk.chunk_id)
  · rw [if_pos h]
    have := List.mem_map_of_mem (fun e =>
      if e.chunk.chunk_id == r.chunk.chunk_id then
        { e with score := e.score + r.score * kw } else e) he
    simpa [hne] using this
  · rw [if_neg h]
    exact List.mem_append_left _ he

theorem kw_fold_spec (kw : ℝ) :
    ∀ (kl acc : List RetrievalResult),
      (kl.map (fun r => r.chunk.chunk_id)).Nodup →
      (∀ e ∈ acc, e.chunk.chunk_id ∉ kl.map (fun r => r.chunk.chunk_id) →
        e ∈ kl.foldl (kwStep kw) acc) ∧
      ((acc.map (fun r => r.chunk.chunk_id)).Nodup →
        ∀ e ∈ acc, ∀ k ∈ kl, e.chunk.chunk_id = k.chunk.chunk_id →
        { e with score := e.score + k.score * kw } ∈ kl.foldl (kwStep kw) acc) ∧
      (∀ k ∈ kl, k.chunk.chunk_id ∉ acc.map (fun r => r.chunk.chunk_id) →
        { k with score := k.score * kw } ∈ kl.foldl (kwStep kw) acc) := by
  intro kl
  induction kl with
  | nil =>
    intro acc _
    refine ⟨fun e he _ => he, fun _ e _ k hk => absurd hk (List.not_mem_nil k),
      fun k hk => absurd hk (List.not_mem_nil k)⟩
  | cons k0 rest ih =>
    intro acc hnd
    have hnd' : (rest.map (fun r => r.chunk.chunk_id)).Nodup :=
      (List.nodup_cons.mp (by simpa using hnd)).2
    have hk0rest : k0.chunk.chunk_id ∉ rest.map (fun r => r.chunk.chunk_id) :=
      (List.nodup_cons.mp (by simpa using hnd)).1
    have ihh := fun acc' => ih acc' hnd'
    have ih1 := fun acc' => (ihh acc').1
    have ih2 := fun acc' => (ihh acc').2.1
    have ih3 := fun acc' => (ihh acc').2.2
    refine ⟨?_, ?_, ?_⟩
    · -- preservation
      intro e he hid
      rw [List.foldl_cons]
      have hne : e.chunk.chunk_id ≠ k0.chunk.chunk_id := by
        intro h
        exact hid (by simp [h])
      exact ih1 (kwStep kw acc k0) e (mem_kwStep_of_ne kw k0 he hne)
        (fun h => hid (by simp at h ⊢; exact Or.inr h))
    · -- shared id gets the summed score
      intro haccnd e he k hk hidk
      rw [List.foldl_cons]
      rcases List.mem_cons.mp hk with rfl | hkrest
      · -- k is the head: update at this step, survive the rest
        have hany : acc.any
            (fun x => x.chunk.chunk_id == k.chunk.chunk_id) = true :=
          List.any_eq_true.mpr ⟨e, he, by simpa using hidk⟩
        have hstep : kwStep kw acc k = acc.map (fun x =>
            if x.chunk.chunk_id == k.chunk.chunk_id then
              { x with score := x.score + k.score * kw } else x) := by
          rw [kwStep, if_pos hany]
        have hupd : { e with score := e.score + k.score * kw } ∈
            kwStep kw acc k := by
          rw [hstep]
          have := List.mem_map_of_mem (fun x =>
            if x.chunk.chunk_id == k.chunk.chunk_id then
              { x with score := x.score + k.score * kw } else x) he
          simpa [hidk] using this
        exact ih1 (kwStep kw acc k) _ hupd (by simpa [hidk] using hk0rest)
      · -- k comes later: survive this step, then apply the IH
        have hne : e.chunk.chunk_id ≠ k0.chunk.chunk_id := by
          intro h
          apply hk0rest
          have hkk : k.chunk.chunk_id = k0.chunk.chunk_id := by rw [← hidk, h]
          exact hkk ▸ List.mem_map_of_mem (fun r => r.chunk.chunk_id) hkrest
        have hmem' : e ∈ kwStep kw acc k0 := mem_kwStep_of_ne kw k0 he hne
        have hnd'' : ((kwStep kw acc k0).map
            (fun e => e.chunk.chunk_id)).Nodup := by
          rw [kwStep_map_id]
          by_cases h : acc.any (fun e => e.chunk.chunk_id == k0.chunk.chunk_id)
          · rw [if_pos h]; exact haccnd
          · rw [if_neg h]
            rw [Bool.not_eq_true, List.any_eq_false] at h
            refine List.Nodup.append haccnd (List.nodup_singleton _) ?_
            intro a ha hb
            rw [List.mem_singleton] at hb
            obtain ⟨x, hx, rfl⟩ := List.mem_map.mp ha
            exact absurd (by simpa using hb) (by simpa using h x hx)
        exact ih2 (kwStep kw acc k0) hnd'' e hmem' k hkrest hidk
    · -- keyword-only id gets appended
      intro k hk hid
      rw [List.foldl_cons]
      rcases List.mem_cons.mp hk with rfl | hkrest
      · have hany : acc.any
            (fun x => x.chunk.chunk_id == k.chunk.chunk_id) = false := by
          rw [List.any_eq_false]
          intro x hx hbeq
          rw [beq_iff_eq] at hbeq
          exact hid (hbeq ▸ List.mem_map_of_mem (fun r => r.chunk.chunk_id) hx)
        have hmem : { k with score := k.score * kw } ∈ kwStep kw acc k := by
          rw [kwStep, if_neg (by simp [hany])]
          exact List.mem_append_right _ (List.mem_singleton_self _)
        exact ih1 (kwStep kw acc k) _ hmem (by simpa using hk0rest)
      · refine ih3 (kwStep kw acc k0) k hkrest ?_
        rw [kwStep_map_id]
        by_cases h : acc.any (fun e => e.chunk.chunk_id == k0.chunk.chunk_id)
        · rw [if_pos h]; exact hid
        · rw [if_neg h]
          intro hmem
          rcases List.mem_append.mp hmem with hmem | hmem
          · exact hid hmem
          · rw [List.mem_singleton] at hmem
            exact hk0rest (hmem ▸
              List.mem_map_of_mem (fun r => r.chunk.chunk_id) hkrest)

theorem mem_rank_map_of_mem {l : List RetrievalResult} {x : RetrievalResult}
    (hx : x ∈ l) :
    ∃ y ∈ l.enum.map (fun p => { p.2 with rank := p.1 }),
      y.chunk = x.chunk ∧ y.score = x.score := by
  obtain ⟨i, hi, hget⟩ := List.getElem_of_mem hx
  refine ⟨{ x with rank := i }, ?_, rfl, rfl⟩
  apply List.mem_map.mpr
  refine ⟨(i, x), ?_, rfl⟩
  have hlen : i < l.enum.length := by simpa using hi
  have h1 : l.enum.get ⟨i, hlen⟩ = (i, x) := by
    rw [List.get_eq_getElem, List.getElem_enum, hget]
  exact h1 ▸ List.get_mem l.enum i hlen

theorem base_map_id (vw : ℝ) (vres : List RetrievalResult) :
    (vres.map (fun r => { r with score := r.score * vw })).map
      (fun r => r.chunk.chunk_id) = vres.map (fun r => r.chunk.chunk_id) := by
  rw [List.map_map]
  rfl

/-- C7: under the hybrid fusion `_merge_search_results` with weights
0.7/0.3 (on result lists with pairwise-distinct chunk ids, as the store
and keyword search produce), a chunk in both lists gets score
0.7·v + 0.3·k, a vector-only chunk gets 0.7·v, a keyword-only chunk gets
0.3·k, and the merged list is sorted by score descending. -/
theorem C7_hybrid_fusion (vres kres : List RetrievalResult)
    (hv : (vres.map (fun r => r.chunk.chunk_id)).Nodup)
    (hk : (kres.map (fun r => r.chunk.chunk_id)).Nodup) :
    (∀ v ∈ vres, ∀ k ∈ kres, v.chunk.chunk_id = k.chunk.chunk_id →
      ∃ m ∈ merge_search_results vres kres 0.7 0.3,
        m.chunk.chunk_id = v.chunk.chunk_id ∧
        m.score = 0.7 * v.score + 0.3 * k.score) ∧
    (∀ v ∈ vres, (∀ k ∈ kres, v.chunk.chunk_id ≠ k.chunk.chunk_id) →
      ∃ m ∈ merge_search_results vres kres 0.7 0.3,
        m.chunk.chunk_id = v.chunk.chunk_id ∧ m.score = 0.7 * v.score) ∧
    (∀ k ∈ kres, (∀ v ∈ vres, k.chunk.chunk_id ≠ v.chunk.chunk_id) →
      ∃ m ∈ merge_search_results vres kres 0.7 0.3,
        m.chunk.chunk_id = k.chunk.chunk_id ∧ m.score = 0.3 * k.score) ∧
    (merge_search_results vres kres 0.7 0.3).Pairwise
      (fun a b => b.score ≤ a.score) := by
  have hbase : vres.foldl (vwStep 0.7) [] =
      vres.map (fun r => { r with score := r.score * 0.7 }) :=
    vw_fold_spec 0.7 vres [] (by simpa using hv)
  have hbasend : ((vres.foldl (vwStep 0.7) []).map
      (fun r => r.chunk.chunk_id)).Nodup := by
    rw [hbase, base_map_id]
    exact hv
  have htransfer : ∀ x ∈ kres.foldl (kwStep 0.3) (vres.foldl (vwStep 0.7) []),
      ∃ m ∈ merge_search_results vres kres 0.7 0.3,
        m.chunk = x.chunk ∧ m.score = x.score := by
    intro x hx
    simp only [merge_search_results]
    exact mem_rank_map_of_mem (((List.perm_insertionSort
      (byScoreDesc RetrievalResult.score) _).mem_iff).mpr hx)
  obtain ⟨kf1, kf2, kf3⟩ := kw_fold_spec 0.3 kres (vres.foldl (vwStep 0.7) []) hk
  refine ⟨?_, ?_, ?_, ?_⟩
  · intro v hvm k hkm hid
    have he : { v with score := v.score * 0.7 } ∈ vres.foldl (vwStep 0.7) [] := by
      rw [hbase]
      exact List.mem_map_of_mem _ hvm
    have hc := kf2 hbasend _ he k hkm (by simpa using hid)
    obtain ⟨m, hm, hmc, hms⟩ := htransfer _ hc
    refine ⟨m, hm, ?_, ?_⟩
    · rw [hmc]
    · rw [hms]
      show v.score * 0.7 + k.score * 0.3 = _
      ring
  · intro v hvm hnone
    have he : { v with score := v.score * 0.7 } ∈ vres.foldl (vwStep 0.7) [] := by
      rw [hbase]
      exact List.mem_map_of_mem _ hvm
    have hout : ({ v with score := v.score * 0.7 } :
        RetrievalResult).chunk.chunk_id ∉
        kres.map (fun r => r.chunk.chunk_id) := by
      intro hmem
      obtain ⟨k, hkm, hkeq⟩ := List.mem_map.mp hmem
      exact hnone k hkm (by simpa using hkeq.symm)
    have hc := kf1 _ he hout
    obtain ⟨m, hm, hmc, hms⟩ := htransfer _ hc
    refine ⟨m, hm, by rw [hmc], ?_⟩
    rw [hms]
    show v.score * 0.7 = _
    ring
  · intro k hkm hnone
    have hout : k.chunk.chunk_id ∉ (vres.foldl (vwStep 0.7) []).map
        (fun r => r.chunk.chunk_id) := by
      rw [hbase, base_map_id]
      intro hmem
      obtain ⟨v, hvm, hveq⟩ := List.mem_map.mp hmem
      exact hnone v hvm (by simpa using hveq.symm)
    have hc := kf3 k hkm hout
    obtain ⟨m, hm, hmc, hms⟩ := htransfer _ hc
    refine ⟨m, hm, by rw [hmc], ?_⟩
    rw [hms]
    show k.score * 0.3 = _
    ring
  · have hsorted : (List.insertionSort (byScoreDesc RetrievalResult.score)
        (kres.foldl (kwStep 0.3) (vres.foldl (vwStep 0.7) []))).Pairwise
        (byScoreDesc RetrievalResult.score) :=
      List.sorted_insertionSort _ _
    simp only [merge_search_results]
    rw [List.pairwise_map]
    exact pairwise_enumFrom _ 0 hsorted

/-- A stored chunk used in concrete runs. -/
noncomputable def sampleChunkA : DocumentChunk :=
  { content := "alpha", chunk_id := "a", doc_id := "d", chunk_index := 0,
    start_char := 0, end_char := 5, metadata := [],
    embedding := some [1, 0] }

/-- A vector-search hit on `sampleChunkA`. -/
noncomputable def sampleVecHit : RetrievalResult :=
  { chunk := sampleChunkA, score := 1, rank := 0,
    retrieval_method := "memory_cosine" }

/-- A keyword hit on `sampleChunkA`. -/
noncomputable def sampleKwHit : RetrievalResult :=
  { chunk := sampleChunkA, score := 1 / 2, rank := 0,
    retrieval_method := "keyword_search" }

/-- C7 witness: the fusion statement at one vector hit and one keyword hit
on the same chunk. -/
theorem C7_hybrid_fusion_witness :
    (∀ v ∈ [sampleVecHit], ∀ k ∈ [sampleKwHit],
      v.chunk.chunk_id = k.chunk.chunk_id →
      ∃ m ∈ merge_search_results [sampleVecHit] [sampleKwHit] 0.7 0.3,
        m.chunk.chunk_id = v.chunk.chunk_id ∧
        m.score = 0.7 * v.score + 0.3 * k.score) ∧
    (∀ v ∈ [sampleVecHit], (∀ k ∈ [sampleKwHit],
        v.chunk.chunk_id ≠ k.chunk.chunk_id) →
      ∃ m ∈ merge_search_results [sampleVecHit] [sampleKwHit] 0.7 0.3,
        m.chunk.chunk_id = v.chunk.chunk_id ∧ m.score = 0.7 * v.score) ∧
    (∀ k ∈ [sampleKwHit], (∀ v ∈ [sampleVecHit],
        k.chunk.chunk_id ≠ v.chunk.chunk_id) →
      ∃ m ∈ merge_search_results [sampleVecHit] [sampleKwHit] 0.7 0.3,
        m.chunk.chunk_id = k.chunk.chunk_id ∧ m.score = 0.3 * k.score) ∧
    (merge_search_results [sampleVecHit] [sampleKwHit] 0.7 0.3).Pairwise
      (fun a b => b.score ≤ a.score) :=
  C7_hybrid_fusion [sampleVecHit] [sampleKwHit] (by simp) (by simp)

/-! ## C8 -/

theorem filterMap_eq_map_of_forall_some {α β : Type} {f : α → Option β}
    {g : α → β} : ∀ {l : List α}, (∀ x ∈ l, f x = some (g x)) →
    l.filterMap f = l.map g := by
  intro l
  induction l with
  | nil => intro _; rfl
  | cons x xs ih =>
    intro h
    rw [List.filterMap_cons, h x (List.mem_cons_self _ _), List.map_cons,
      ih (fun y hy => h y (List.mem_cons_of_mem _ hy))]

theorem fold_upsert_nodup :
    ∀ (l : List DocumentChunk) (acc : List DocumentChunk),
      ((acc.map (fun c => c.chunk_id)).Nodup) →
      (((l.foldl (fun s c => upsertChunk c s) acc).map
        (fun c => c.chunk_id)).Nodup) := by
  intro l
  induction l with
  | nil => intro acc h; exact h
  | cons c rest ih =>
    intro acc h
    rw [List.foldl_cons]
    apply ih
    rw [upsertChunk]
    by_cases hc : acc.any (fun e => e.chunk_id == c.chunk_id)
    · rw [if_pos hc, List.map_map]
      have : ((fun e => e.chunk_id) ∘ fun e =>
          if e.chunk_id == c.chunk_id then c else e) = fun e =>
          if e.chunk_id == c.chunk_id then c.chunk_id else e.chunk_id := by
        funext e
        by_cases he : e.chunk_id == c.chunk_id
        · simp [Function.comp, he]
        · simp [Function.comp, he]
      rw [this]
      have : (acc.map (fun e =>
          if e.chunk_id == c.chunk_id then c.chunk_id else e.chunk_id)) =
          acc.map (fun e => e.chunk_id) := by
        apply List.map_congr_left
        intro e _
        by_cases he : e.chunk_id == c.chunk_id
        · rw [if_pos he]
          exact (beq_iff_eq.mp he).symm
        · rw [if_neg he]
      rw [this]
      exact h
    · rw [if_neg hc, List.map_append, List.map_cons, List.map_nil]
      refine List.Nodup.append h (List.nodup_singleton _) ?_
      intro a ha hb
      rw [List.mem_singleton] at hb
      rw [Bool.not_eq_true, List.any_eq_false] at hc
      obtain ⟨e, he, rfl⟩ := List.mem_map.mp ha
      exact absurd (by simpa using hb) (by simpa using hc e he)

theorem fold_upsert_mem_subset :
    ∀ (l : List DocumentChunk) (acc : List DocumentChunk) (x : DocumentChunk),
      x ∈ l.foldl (fun s c => upsertChunk c s) acc → x ∈ acc ∨ x ∈ l := by
  intro l
  induction l with
  | nil => intro acc x hx; exact Or.inl hx
  | cons c rest ih =>
    intro acc x hx
    rw [List.foldl_cons] at hx
    rcases ih (upsertChunk c acc) x hx with hx' | hx'
    · rw [upsertChunk] at hx'
      by_cases hc : acc.any (fun e => e.chunk_id == c.chunk_id)
      · rw [if_pos hc] at hx'
        obtain ⟨e, he, hfe⟩ := List.mem_map.mp hx'
        by_cases hee : e.chunk_id == c.chunk_id
        · rw [if_pos hee] at hfe
          exact Or.inr (hfe ▸ List.mem_cons_self _ _)
        · rw [if_neg hee] at hfe
          exact Or.inl (hfe ▸ he)
      · rw [if_neg hc] at hx'
        rcases List.mem_append.mp hx' with hx' | hx'
        · exact Or.inl hx'
        · rw [List.mem_singleton] at hx'
          exact Or.inr (hx' ▸ List.mem_cons_self _ _)
    · exact Or.inr (List.mem_cons_of_mem _ hx')

theorem findChunk_of_mem_nodup :
    ∀ {st : List DocumentChunk} {c : DocumentChunk},
      (st.map (fun c => c.chunk_id)).Nodup → c ∈ st →
      findChunk c.chunk_id st = some c := by
  intro st
  induction st with
  | nil => intro c _ hc; cases hc
  | cons d rest ih =>
    intro c hnd hc
    rw [findChunk]
    rcases List.mem_cons.mp hc with rfl | hc'
    · rw [if_pos rfl]
    · by_cases hdc : d.chunk_id = c.chunk_id
      · exfalso
        have : d.chunk_id ∈ rest.map (fun c => c.chunk_id) :=
          hdc ▸ List.mem_map_of_mem (fun c => c.chunk_id) hc'
        exact (List.nodup_cons.mp (by simpa using hnd)).1 this
      · rw [if_neg hdc]
        exact ih (List.nodup_cons.mp (by simpa using hnd)).2 hc'

theorem add_chunks_faiss_ok :
    ∀ (l : List DocumentChunk) (st : List DocumentChunk),
      (∀ c ∈ l, embMissing c = false) →
      add_chunks_faiss st l =
        Except.ok (l.foldl (fun s c => upsertChunk c s) st) := by
  intro l
  induction l with
  | nil => intro st _; rfl
  | cons c rest ih =>
    intro st h
    rw [add_chunks_faiss,
      if_neg (by simp [h c (List.mem_cons_self _ _)]), List.foldl_cons]
    exact ih (upsertChunk c st) (fun c' hc' => h c' (List.mem_cons_of_mem _ hc'))

theorem orderedInsert_map_snd {α β : Type} (g : α → β) (a : α × ℝ) :
    ∀ l : List (α × ℝ),
      List.orderedInsert (byScoreDesc (fun p => p.2)) (g a.1, a.2)
          (l.map (fun p => (g p.1, p.2))) =
        (List.orderedInsert (byScoreDesc (fun p => p.2)) a l).map
          (fun p => (g p.1, p.2)) := by
  intro l
  induction l with
  | nil => rfl
  | cons b t ih =>
    simp only [List.map_cons, List.orderedInsert]
    by_cases h : byScoreDesc (fun p : α × ℝ => p.2) a b
    · rw [if_pos h, if_pos (show byScoreDesc (fun p : β × ℝ => p.2)
        (g a.1, a.2) (g b.1, b.2) from h), List.map_cons, List.map_cons]
    · rw [if_neg h, if_neg (show ¬byScoreDesc (fun p : β × ℝ => p.2)
        (g a.1, a.2) (g b.1, b.2) from h), List.map_cons, ih]

theorem insertionSort_map_snd {α β : Type} (g : α → β) :
    ∀ l : List (α × ℝ),
      List.insertionSort (byScoreDesc (fun p => p.2))
          (l.map (fun p => (g p.1, p.2))) =
        (List.insertionSort (byScoreDesc (fun p => p.2)) l).map
          (fun p => (g p.1, p.2)) := by
  intro l
  induction l with
  | nil => rfl
  | cons a t ih =>
    simp only [List.map_cons, List.insertionSort, ih]
    exact orderedInsert_map_snd g a _

theorem enumFrom_map_pair {α β : Type} (f : α → β) :
    ∀ (n : ℕ) (l : List α),
      List.enumFrom n (l.map f) =
        (List.enumFrom n l).map (fun p => (p.1, f p.2)) := by
  intro n l
  induction l generalizing n with
  | nil => rfl
  | cons a t ih => simp [List.enumFrom, ih]

theorem searchMem_no_filter (st : List DocumentChunk) (qe : List ℝ) (k : ℕ)
    (hstemb : ∀ c ∈ st, embMissing c = false) :
    searchMem st qe k [] =
      ((List.insertionSort (byScoreDesc (fun p => p.2))
          (st.map (fun c =>
            (c, cosine_similarity qe (c.embedding.getD []))))).take k).enum.map
        (fun p => { chunk := p.2.1, score := p.2.2, rank := p.1,
                    retrieval_method := "memory_cosine" }) := by
  simp only [searchMem]
  have h : List.filterMap (fun c =>
      if embMissing c then none
      else if ([] : List (String × String)) ≠ [] ∧ ¬apply_filters c [] then none
      else some (c, cosine_similarity qe (c.embedding.getD []))) st =
      List.map (fun c => (c, cosine_similarity qe (c.embedding.getD []))) st :=
    filterMap_eq_map_of_forall_some (fun c hc => by
      rw [if_neg (by simp [hstemb c hc]), if_neg (by simp)])
  rw [h]

theorem searchFaiss_no_filter (st : List DocumentChunk) (qe : List ℝ) (k : ℕ)
    (hnd : (st.map (fun c => c.chunk_id)).Nodup) :
    searchFaiss st qe k [] =
      ((List.insertionSort (byScoreDesc (fun p => p.2))
          (st.map (fun c =>
            (c, cosine_similarity qe (c.embedding.getD []))))).take k).enum.map
        (fun p => { chunk := p.2.1, score := p.2.2, rank := p.1,
                    retrieval_method := "faiss_cosine" }) := by
  simp only [searchFaiss]
  have h1 : st.map (fun c =>
      (c.chunk_id, cosine_similarity qe (c.embedding.getD []))) =
      (st.map (fun c =>
        (c, cosine_similarity qe (c.embedding.getD [])))).map
        (fun p => (p.1.chunk_id, p.2)) := by
    rw [List.map_map]
    rfl
  rw [h1, insertionSort_map_snd, ← List.map_take]
  simp only [List.enum]
  rw [enumFrom_map_pair, List.filterMap_map]
  apply filterMap_eq_map_of_forall_some
  intro q hq
  have hqm : q.2 ∈ (List.insertionSort (byScoreDesc (fun p => p.2))
      (st.map (fun c =>
        (c, cosine_similarity qe (c.embedding.getD []))))).take k :=
    mem_enumFrom_snd hq
  have hq2 := List.mem_of_mem_take hqm
  have hq3 := ((List.perm_insertionSort _ _).mem_iff).mp hq2
  obtain ⟨c, hc, hgc⟩ := List.mem_map.mp hq3
  have hmem : q.2.1 ∈ st := by
    rw [← hgc]
    exact hc
  have hfind : findChunk q.2.1.chunk_id st = some q.2.1 :=
    findChunk_of_mem_nodup hnd hmem
  simp only [Function.comp]
  rw [hfind]
  show (if ([] : List (String × String)) ≠ [] ∧ ¬apply_filters q.2.1 [] then
      (none : Option RetrievalResult)
    else some { chunk := q.2.1, score := q.2.2, rank := q.1,
                retrieval_method := "faiss_cosine" }) =
    some ({ chunk := q.2.1, score := q.2.2, rank := q.1,
            retrieval_method := "faiss_cosine" } : RetrievalResult)
  rw [if_neg (by simp)]

/-- C8: amended. For identical sequences of inserted chunks all of which
carry an embedding, and an empty filter dict, the in-memory and FAISS
stores accept the batch identically and their searches return the same
chunks with the same scores in the same ranks and order (the spec's claim
of identical ordering for ALL identical inputs fails once filters are
non-empty, because FAISS applies them after top-k truncation — see the
counterexample). -/
theorem C8_store_search_equivalence (inserted : List DocumentChunk)
    (query_embedding : List ℝ) (top_k : ℕ)
    (hemb : ∀ c ∈ inserted, embMissing c = false) :
    add_chunks_faiss [] inserted = Except.ok (add_chunks_mem [] inserted).1 ∧
    (searchMem (add_chunks_mem [] inserted).1 query_embedding top_k []).map
        (fun r => (r.chunk, r.score, r.rank)) =
      (searchFaiss (add_chunks_mem [] inserted).1 query_embedding
          top_k []).map (fun r => (r.chunk, r.score, r.rank)) := by
  refine ⟨add_chunks_faiss_ok inserted [] hemb, ?_⟩
  have hstm : ∀ x ∈ (add_chunks_mem [] inserted).1, x ∈ inserted := by
    intro x hx
    rcases fold_upsert_mem_subset inserted [] x hx with h | h
    · cases h
    · exact h
  have hnd : ((add_chunks_mem [] inserted).1.map
      (fun c => c.chunk_id)).Nodup :=
    fold_upsert_nodup inserted [] (by simp)
  rw [searchMem_no_filter _ _ _ (fun c hc => hemb c (hstm c hc)),
    searchFaiss_no_filter _ _ _ hnd, List.map_map, List.map_map]
  rfl

/-- A chunk with an embedding along the first axis, belonging to doc `x`. -/
noncomputable def chunkX : DocumentChunk :=
  { content := "alpha"
    chunk_id := "a"
    doc_id := "x"
    chunk_index := 0
    start_char := 0
    end_char := 5
    metadata := []
    embedding := some [1, 0] }

/-- A chunk with an embedding along the second axis, belonging to doc `y`. -/
noncomputable def chunkY : DocumentChunk :=
  { content := "beta"
    chunk_id := "b"
    doc_id := "y"
    chunk_index := 0
    start_char := 0
    end_char := 4
    metadata := []
    embedding := some [0, 1] }

theorem C8_store_search_equivalence_witness :
    (∀ c ∈ [chunkX], embMissing c = false) ∧
    (add_chunks_faiss [] [chunkX] = Except.ok (add_chunks_mem [] [chunkX]).1 ∧
      (searchMem (add_chunks_mem [] [chunkX]).1 [1, 0] 1 []).map
          (fun r => (r.chunk, r.score, r.rank)) =
        (searchFaiss (add_chunks_mem [] [chunkX]).1 [1, 0] 1 []).map
          (fun r => (r.chunk, r.score, r.rank))) :=
  ⟨fun c hc => by rw [List.mem_singleton] at hc; subst hc; rfl,
   C8_store_search_equivalence [chunkX] [1, 0] 1
     (fun c hc => by rw [List.mem_singleton] at hc; subst hc; rfl)⟩

theorem l2norm_e1 : l2norm [(1 : ℝ), 0] = 1 := by
  unfold l2norm
  have h : ([(1 : ℝ), 0].map (fun a => a * a)).sum = 1 := by norm_num
  rw [h, Real.sqrt_one]

theorem l2norm_e2 : l2norm [(0 : ℝ), 1] = 1 := by
  unfold l2norm
  have h : ([(0 : ℝ), 1].map (fun a => a * a)).sum = 1 := by norm_num
  rw [h, Real.sqrt_one]

theorem cos_e1_e1 : cosine_similarity [(1 : ℝ), 0] [1, 0] = 1 := by
  rw [cosine_similarity_eq, if_neg (by simp), if_neg (by simp [l2norm_e1])]
  rw [l2norm_e1]
  unfold dotProduct
  norm_num

theorem cos_e1_e2 : cosine_similarity [(1 : ℝ), 0] [0, 1] = 0 := by
  rw [cosine_similarity_eq, if_neg (by simp),
    if_neg (by simp [l2norm_e1, l2norm_e2])]
  rw [l2norm_e1, l2norm_e2]
  unfold dotProduct
  norm_num

/-- C8 counterexample: with a non-empty filter dict the two stores
disagree. Store: chunk `a` (doc `x`, embedding `[1,0]`) and chunk `b`
(doc `y`, embedding `[0,1]`); query `[1,0]`; `top_k = 1`; filters
`{doc_id: y}`. The in-memory store filters before ranking and returns
chunk `b`; FAISS truncates to the top-1 candidate (chunk `a`) first and
only then filters, returning nothing. -/
theorem C8_counterexample :
    (searchMem [chunkX, chunkY] [1, 0] 1 [("doc_id", "y")]).length = 1 ∧
    (searchFaiss [chunkX, chunkY] [1, 0] 1 [("doc_id", "y")]).length = 0 := by
  constructor
  · simp [searchMem, chunkX, chunkY, embMissing, apply_filters, mlookup,
      List.insertionSort, List.orderedInsert]
  · norm_num [searchFaiss, chunkX, chunkY, cos_e1_e1, cos_e1_e2,
      List.insertionSort, List.orderedInsert, byScoreDesc, findChunk,
      apply_filters, mlookup]
    intro h
    exact absurd h (by decide)

/-! ## C1 -/

/-- `m` is the first element of `l` attaining the maximum of `f` over `l`
(Python's `max(l, key=f)` and the strict-improvement scans both keep the
earliest maximiser). -/
def IsFirstMax {α : Type} (f : α → ℝ) (l : List α) (m : α) : Prop :=
  ∃ pre post, l = pre ++ m :: post ∧ (∀ d ∈ l, f d ≤ f m) ∧
    ∀ d ∈ pre, f d < f m

open Classical in
/-- Spec-side "argmax" of the MMR description: the first element whose
`f`-value dominates the whole list. -/
noncomputable def firstMaxBy {α : Type} (f : α → ℝ) (l : List α) : Option α :=
  l.find? (fun c => decide (∀ d ∈ l, f d ≤ f c))

theorem pyMax_isFirstMax {α : Type} (f : α → ℝ) :
    ∀ (rest : List α) (b : α), IsFirstMax f (b :: rest) (pyMax f b rest) := by
  intro rest
  induction rest with
  | nil =>
    intro b
    refine ⟨[], [], by rw [pyMax, List.nil_append], ?_, by simp⟩
    simp [pyMax]
  | cons c t ih =>
    intro b
    rw [pyMax]
    by_cases h : f b < f c
    · rw [if_pos h]
      obtain ⟨pre, post, he, hmax, hstr⟩ := ih c
      refine ⟨b :: pre, post, by rw [List.cons_append, ← he], ?_, ?_⟩
      · intro d hd
        rcases List.mem_cons.mp hd with rfl | hd'
        · exact le_of_lt (lt_of_lt_of_le h (hmax c (List.mem_cons_self _ _)))
        · exact hmax d (he ▸ hd')
      · intro d hd
        rcases List.mem_cons.mp hd with rfl | hd'
        · exact lt_of_lt_of_le h (hmax c (List.mem_cons_self _ _))
        · exact hstr d hd'
    · rw [if_neg h]
      obtain ⟨pre, post, he, hmax, hstr⟩ := ih b
      cases pre with
      | nil =>
        have hm : pyMax f b t = b := (List.head_eq_of_cons_eq he.symm)
        refine ⟨[], c :: t, by rw [hm, List.nil_append], ?_, by simp⟩
        intro d hd
        rw [hm]
        rcases List.mem_cons.mp hd with rfl | hd'
        · exact le_refl _
        · rcases List.mem_cons.mp hd' with rfl | hd''
          · exact le_of_not_lt h
          · have hdm : d ∈ b :: t := List.mem_cons_of_mem _ hd''
            have := hmax d hdm
            rw [hm] at this
            exact this
      | cons b' pre₂ =>
        have hb' : b' = b := (List.head_eq_of_cons_eq he).symm
        have ht : t = pre₂ ++ pyMax f b t :: post := List.tail_eq_of_cons_eq he
        have hbmem : b ∈ b' :: pre₂ := by
          rw [hb']
          exact List.mem_cons_self b pre₂
        have hblt : f b < f (pyMax f b t) := hstr b hbmem
        refine ⟨b :: c :: pre₂, post,
          by rw [List.cons_append, List.cons_append, ← ht], ?_, ?_⟩
        · intro d hd
          rcases List.mem_cons.mp hd with rfl | hd'
          · exact le_of_lt hblt
          · rcases List.mem_cons.mp hd' with rfl | hd''
            · exact le_of_lt (lt_of_le_of_lt (le_of_not_lt h) hblt)
            · exact hmax d (List.mem_cons_of_mem _ hd'')
        · intro d hd
          rcases List.mem_cons.mp hd with rfl | hd'
          · exact hblt
          · rcases List.mem_cons.mp hd' with rfl | hd''
            · exact lt_of_le_of_lt (le_of_not_lt h) hblt
            · exact hstr d (List.mem_cons_of_mem _ hd'')

theorem pyBestScan_none {α : Type} (f : α → ℝ) :
    ∀ (l : List α) (bs : ℝ) (best : Option α),
      (∀ c ∈ l, f c ≤ bs) → pyBestScan f l bs best = best := by
  intro l
  induction l with
  | nil => intro bs best _; rfl
  | cons c rest ih =>
    intro bs best h
    rw [pyBestScan, if_neg (not_lt.mpr (h c (List.mem_cons_self _ _)))]
    exact ih bs best (fun d hd => h d (List.mem_cons_of_mem _ hd))

theorem pyBestScan_some {α : Type} (f : α → ℝ) :
    ∀ (l : List α) (m : α), IsFirstMax f l m →
      ∀ (bs : ℝ) (best : Option α), bs < f m →
        pyBestScan f l bs best = some m := by
  intro l
  induction l with
  | nil =>
    intro m hm
    obtain ⟨pre, _, he, _, _⟩ := hm
    cases pre <;> simp at he
  | cons a t ih =>
    intro m hm bs best hbs
    obtain ⟨pre, post, he, hmax, hstr⟩ := hm
    rw [pyBestScan]
    cases pre with
    | nil =>
      have ha : a = m := List.head_eq_of_cons_eq he
      subst ha
      rw [if_pos hbs]
      exact pyBestScan_none f t (f a) (some a)
        (fun c hc => hmax c (List.mem_cons_of_mem _ hc))
    | cons b pre₂ =>
      have hb : b = a := (List.head_eq_of_cons_eq he).symm
      have ht : t = pre₂ ++ m :: post := List.tail_eq_of_cons_eq he
      have hstr_a : f a < f m := by
        rw [← hb]
        exact hstr b (List.mem_cons_self _ _)
      have htail : IsFirstMax f t m :=
        ⟨pre₂, post, ht,
         fun d hd => hmax d (ht ▸ List.mem_cons_of_mem a (ht.symm ▸ hd)),
         fun d hd => hstr d (List.mem_cons_of_mem _ hd)⟩
      by_cases hc : bs < f a
      · rw [if_pos hc]
        exact ih m htail (f a) (some a) hstr_a
      · rw [if_neg hc]
        exact ih m htail bs best hbs

theorem find?_first {α : Type} {P : α → Bool} :
    ∀ (pre : List α) (m : α) (post : List α), P m = true →
      (∀ d ∈ pre, P d = false) → (pre ++ m :: post).find? P = some m := by
  intro pre
  induction pre with
  | nil =>
    intro m post hm _
    rw [List.nil_append]
    exact List.find?_cons_of_pos _ hm
  | cons a pre₂ ih =>
    intro m post hm hpre
    rw [List.cons_append,
      List.find?_cons_of_neg _
        (by rw [hpre a (List.mem_cons_self _ _)]; exact Bool.false_ne_true)]
    exact ih m post hm (fun d hd => hpre d (List.mem_cons_of_mem _ hd))

theorem firstMaxBy_eq_some {α : Type} {f : α → ℝ} {l : List α} {m : α}
    (h : IsFirstMax f l m) : firstMaxBy f l = some m := by
  obtain ⟨pre, post, he, hmax, hstr⟩ := h
  rw [firstMaxBy, he]
  apply find?_first
  · exact decide_eq_true (fun d hd => hmax d (he.symm ▸ hd))
  · intro d hd
    apply decide_eq_false
    intro hall
    have hmem : m ∈ pre ++ m :: post :=
      List.mem_append_right _ (List.mem_cons_self _ _)
    exact absurd (hall m hmem) (not_le.mpr (hstr d hd))

/-- The MMR selection loop as the (amended) spec describes it: while
fewer than `top_k` results are selected and candidates remain, take the
earliest remaining candidate maximising the MMR score; select it (tagged
`mmr_search`) only when its score exceeds the sentinel −1, otherwise stop. -/
noncomputable def mmr_reference_loop (lam : ℝ) (topk : ℕ) :
    ℕ → List RetrievalResult → List RetrievalResult → List RetrievalResult
  | 0, selected, _ => selected
  | fuel + 1, selected, remaining =>
      if selected.length < topk ∧ remaining ≠ [] then
        match firstMaxBy (mmr_score lam selected) remaining with
        | some best =>
            if -1 < mmr_score lam selected best then
              mmr_reference_loop lam topk fuel
                (selected ++ [{ best with retrieval_method := "mmr_search" }])
                (remaining.erase best)
            else selected
        | none => selected
      else selected

/-- `_mmr_search` as the (amended) spec describes it: `top_k × 3`
similarity candidates; the earliest highest-scoring one first (untagged);
then the reference loop. -/
noncomputable def mmr_reference
    (vsearch : List ℝ → ℕ → List (String × String) → List RetrievalResult)
    (lam : ℝ) (query_embedding : List ℝ)
    (q : RetrievalQuery) : List RetrievalResult :=
  let initial := vsearch query_embedding (q.top_k * 3) q.filters
  match firstMaxBy RetrievalResult.score initial with
  | none => []
  | some best =>
      mmr_reference_loop lam q.top_k initial.length [best] (initial.erase best)

theorem mmrLoop_eq_reference (lam : ℝ) (topk : ℕ) :
    ∀ (fuel : ℕ) (selected remaining : List RetrievalResult),
      mmrLoop lam topk fuel selected remaining =
        mmr_reference_loop lam topk fuel selected remaining := by
  intro fuel
  induction fuel with
  | zero => intro s r; rfl
  | succ n ih =>
    intro s r
    rw [mmrLoop, mmr_reference_loop]
    by_cases hc : s.length < topk ∧ r ≠ []
    · rw [if_pos hc, if_pos hc]
      cases r with
      | nil => exact absurd rfl hc.2
      | cons a t =>
        have hm := pyMax_isFirstMax (mmr_score lam s) t a
        rw [firstMaxBy_eq_some hm]
        by_cases hgt :
            (-1 : ℝ) < mmr_score lam s (pyMax (mmr_score lam s) a t)
        · rw [pyBestScan_some (mmr_score lam s) (a :: t)
            (pyMax (mmr_score lam s) a t) hm (-1) none hgt]
          simp only []
          rw [if_pos hgt]
          exact ih _ _
        · obtain ⟨_, _, _, hmax, _⟩ := hm
          rw [pyBestScan_none (mmr_score lam s) (a :: t) (-1) none
            (fun c hcm => le_trans (hmax c hcm) (le_of_not_lt hgt))]
          simp only []
          rw [if_neg hgt]
    · rw [if_neg hc, if_neg hc]

/-- C1: amended. `_mmr_search` takes `top_k × 3` similarity candidates,
first selects the earliest candidate with the highest similarity score
(keeping its original method tag), then repeatedly selects the earliest
remaining candidate maximising
`λ·score − (1−λ)·max(0, max cosine similarity to selected embeddings)`
(0 when the candidate's embedding is absent), tagging it `mmr_search` —
but only while that maximal MMR score exceeds the sentinel `best_score
= −1`; it stops as soon as `top_k` are selected, candidates run out, or
every remaining candidate's MMR score is ≤ −1, so it can return fewer
than `top_k` results while candidates remain. -/
theorem C1_mmr_selection
    (vsearch : List ℝ → ℕ → List (String × String) → List RetrievalResult)
    (lam : ℝ) (query_embedding : List ℝ) (q : RetrievalQuery) :
    mmr_search vsearch lam query_embedding q =
      mmr_reference vsearch lam query_embedding q := by
  simp only [mmr_search, mmr_reference]
  cases hi : vsearch query_embedding (q.top_k * 3) q.filters with
  | nil => rfl
  | cons c0 rest0 =>
    have hm := pyMax_isFirstMax RetrievalResult.score rest0 c0
    rw [firstMaxBy_eq_some hm]
    simp only []
    exact mmrLoop_eq_reference lam q.top_k _ _ _

/-- A chunk whose embedding points opposite to the query `[1]`. -/
noncomputable def chunkM1 : DocumentChunk :=
  { content := "m1"
    chunk_id := "m1"
    doc_id := "d"
    chunk_index := 0
    start_char := 0
    end_char := 2
    metadata := []
    embedding := some [-1] }

/-- A second chunk with the same opposite-pointing embedding. -/
noncomputable def chunkM2 : DocumentChunk :=
  { content := "m2"
    chunk_id := "m2"
    doc_id := "d"
    chunk_index := 1
    start_char := 0
    end_char := 2
    metadata := []
    embedding := some [-1] }

/-- An MMR query asking for two results. -/
noncomputable def qMMR : RetrievalQuery :=
  { query := "q"
    top_k := 2
    strategy := RetrievalStrategy.mmr
    filters := []
    threshold := 0
    rerank := false
    expand_query := false
    query_embedding := some [1] }

theorem l2norm_p1 : l2norm [(1 : ℝ)] = 1 := by
  unfold l2norm
  have h : ([(1 : ℝ)].map (fun a => a * a)).sum = 1 := by norm_num
  rw [h, Real.sqrt_one]

theorem l2norm_n1 : l2norm [(-1 : ℝ)] = 1 := by
  unfold l2norm
  have h : ([(-1 : ℝ)].map (fun a => a * a)).sum = 1 := by norm_num
  rw [h, Real.sqrt_one]

theorem cos_p1_n1 : cosine_similarity [(1 : ℝ)] [-1] = -1 := by
  rw [cosine_similarity_eq, if_neg (by simp),
    if_neg (by simp [l2norm_p1, l2norm_n1])]
  rw [l2norm_p1, l2norm_n1]
  unfold dotProduct
  norm_num

theorem cos_n1_n1 : cosine_similarity [(-1 : ℝ)] [-1] = 1 := by
  rw [cosine_similarity_eq, if_neg (by simp), if_neg (by simp [l2norm_n1])]
  rw [l2norm_n1]
  unfold dotProduct
  norm_num

theorem searchMem_mmr_eval : searchMem [chunkM1, chunkM2] [1] 6 [] =
    [⟨chunkM1, -1, 0, "memory_cosine"⟩,
     ⟨chunkM2, -1, 1, "memory_cosine"⟩] := by
  norm_num [searchMem, chunkM1, chunkM2, embMissing, cos_p1_n1,
    List.insertionSort, List.orderedInsert, byScoreDesc, List.enum_cons,
    List.enumFrom_cons]

/-- C1 counterexample to the frozen claim's stopping condition: with two
candidates whose embeddings both point opposite to the query, every
score is −1, so after the first selection the single remaining
candidate's MMR score is ½·(−1) − ½·1 = −1, which does not beat the
sentinel `best_score = −1`; the loop breaks and `_mmr_search` returns
one result although `top_k = 2` and a candidate remains. -/
theorem C1_counterexample :
    qMMR.top_k = 2 ∧
    (searchMem [chunkM1, chunkM2] [1] (qMMR.top_k * 3)
      qMMR.filters).length = 2 ∧
    (mmr_search (searchMem [chunkM1, chunkM2]) (1 / 2) [1] qMMR).length
      = 1 := by
  have h1 : searchMem [chunkM1, chunkM2] [1] (qMMR.top_k * 3) qMMR.filters =
      [⟨chunkM1, -1, 0, "memory_cosine"⟩,
       ⟨chunkM2, -1, 1, "memory_cosine"⟩] := by
    rw [show qMMR.top_k * 3 = 6 from rfl,
      show qMMR.filters = ([] : List (String × String)) from rfl,
      searchMem_mmr_eval]
  refine ⟨rfl, by rw [h1]; rfl, ?_⟩
  have hp : pyMax RetrievalResult.score
      (⟨chunkM1, -1, 0, "memory_cosine"⟩ : RetrievalResult)
      [⟨chunkM2, -1, 1, "memory_cosine"⟩] =
      ⟨chunkM1, -1, 0, "memory_cosine"⟩ := by
    rw [pyMax, if_neg (by norm_num)]
    rfl
  have hsim : mmrMaxSelSim [⟨chunkM1, -1, 0, "memory_cosine"⟩]
      ⟨chunkM2, -1, 1, "memory_cosine"⟩ = 1 := by
    norm_num [mmrMaxSelSim, embMissing, chunkM1, chunkM2, cos_n1_n1]
  have hscore : mmr_score (1 / 2) [⟨chunkM1, -1, 0, "memory_cosine"⟩]
      ⟨chunkM2, -1, 1, "memory_cosine"⟩ = -1 := by
    rw [mmr_score, hsim]
    norm_num
  simp only [mmr_search, h1]
  rw [hp]
  rw [show ([⟨chunkM1, -1, 0, "memory_cosine"⟩,
      ⟨chunkM2, -1, 1, "memory_cosine"⟩] :
      List RetrievalResult).erase ⟨chunkM1, -1, 0, "memory_cosine"⟩ =
    [⟨chunkM2, -1, 1, "memory_cosine"⟩] from List.erase_cons_head _ _]
  rw [show ([⟨chunkM1, -1, 0, "memory_cosine"⟩,
      ⟨chunkM2, -1, 1, "memory_cosine"⟩] :
      List RetrievalResult).length = 2 from rfl]
  rw [mmrLoop, if_pos (And.intro (by norm_num [qMMR]) (by simp))]
  have hscan : pyBestScan
      (mmr_score (1 / 2) [⟨chunkM1, -1, 0, "memory_cosine"⟩])
      [⟨chunkM2, -1, 1, "memory_cosine"⟩] (-1) none = none := by
    rw [pyBestScan, if_neg (by rw [hscore]; norm_num)]
    rfl
  rw [hscan]
  rfl
